import Mathlib

/-!
Verification of the WiseMind client-side data view engine.

Shallow embedding of the two source files:
* `src/home.js` — the filter / sort / paginate pipeline (`processedUsers`,
  `paginatedUsers`, `getNestedValue`, the sort comparator, the interaction
  handlers `handleSearch`, `handleSort`, `onItemsPerPageChange`, and the
  `numberOfPages` computation of the pagination control);
* `src/unnamed/part_000` (LoginScreen) — `validateEmail` and `handleLogin`.

Modelling conventions:
* JavaScript values reachable in this program are modelled by `JVal`
  (strings, integer numbers, booleans, null, undefined, and plain objects
  as association lists).  Numbers are modelled as integers: every number
  occurring in the data of the repository and counterexamples is integral.
* String ordering / lowercasing is the Lean code-point order and ASCII
  `toLower`; this agrees with JavaScript code-unit comparison and
  `toLowerCase` on the ASCII strings used throughout.
* Property access on a truthy primitive is modelled as `undefined`
  (prototype properties and string index/length access are outside the
  modelled domain; no path used by the program touches them).
* Potentially-throwing steps are mirrored in an `Except String` layer
  (`getNestedValueE`, `userCmpE`, `filterUsersE`); theorems relate it to
  the pure layer to express "no exception".
* `Array.prototype.sort` (ES2019: stable, but implementation-defined for
  inconsistent comparators) is modelled as the V8 TimSort specialised to
  arrays shorter than 64 elements, where it reduces to: detect an initial
  ascending run (or a strictly descending run, which is reversed), then
  extend it by stable binary insertion of the remaining elements.
-/

/-- JavaScript values as used by this program. -/
inductive JVal : Type where
  | vStr (s : String)
  | vNum (n : Int)
  | vBool (b : Bool)
  | vNull
  | vUndefined
  | vObj (fields : List (String × JVal))

mutual

/-- Decidable equality for `JVal` (written out because the nested
`List (String × JVal)` defeats automatic derivation). -/
def JVal.decEq : (a b : JVal) → Decidable (a = b)
  | .vStr a, .vStr b =>
    if h : a = b then .isTrue (by rw [h]) else .isFalse (by intro hc; cases hc; exact h rfl)
  | .vNum a, .vNum b =>
    if h : a = b then .isTrue (by rw [h]) else .isFalse (by intro hc; cases hc; exact h rfl)
  | .vBool a, .vBool b =>
    if h : a = b then .isTrue (by rw [h]) else .isFalse (by intro hc; cases hc; exact h rfl)
  | .vNull, .vNull => .isTrue rfl
  | .vUndefined, .vUndefined => .isTrue rfl
  | .vObj a, .vObj b =>
    match JVal.decEqFields a b with
    | .isTrue h => .isTrue (by rw [h])
    | .isFalse h => .isFalse (by intro hc; cases hc; exact h rfl)
  | .vStr _, .vNum _ => .isFalse (by intro hc; cases hc)
  | .vStr _, .vBool _ => .isFalse (by intro hc; cases hc)
  | .vStr _, .vNull => .isFalse (by intro hc; cases hc)
  | .vStr _, .vUndefined => .isFalse (by intro hc; cases hc)
  | .vStr _, .vObj _ => .isFalse (by intro hc; cases hc)
  | .vNum _, .vStr _ => .isFalse (by intro hc; cases hc)
  | .vNum _, .vBool _ => .isFalse (by intro hc; cases hc)
  | .vNum _, .vNull => .isFalse (by intro hc; cases hc)
  | .vNum _, .vUndefined => .isFalse (by intro hc; cases hc)
  | .vNum _, .vObj _ => .isFalse (by intro hc; cases hc)
  | .vBool _, .vStr _ => .isFalse (by intro hc; cases hc)
  | .vBool _, .vNum _ => .isFalse (by intro hc; cases hc)
  | .vBool _, .vNull => .isFalse (by intro hc; cases hc)
  | .vBool _, .vUndefined => .isFalse (by intro hc; cases hc)
  | .vBool _, .vObj _ => .isFalse (by intro hc; cases hc)
  | .vNull, .vStr _ => .isFalse (by intro hc; cases hc)
  | .vNull, .vNum _ => .isFalse (by intro hc; cases hc)
  | .vNull, .vBool _ => .isFalse (by intro hc; cases hc)
  | .vNull, .vUndefined => .isFalse (by intro hc; cases hc)
  | .vNull, .vObj _ => .isFalse (by intro hc; cases hc)
  | .vUndefined, .vStr _ => .isFalse (by intro hc; cases hc)
  | .vUndefined, .vNum _ => .isFalse (by intro hc; cases hc)
  | .vUndefined, .vBool _ => .isFalse (by intro hc; cases hc)
  | .vUndefined, .vNull => .isFalse (by intro hc; cases hc)
  | .vUndefined, .vObj _ => .isFalse (by intro hc; cases hc)
  | .vObj _, .vStr _ => .isFalse (by intro hc; cases hc)
  | .vObj _, .vNum _ => .isFalse (by intro hc; cases hc)
  | .vObj _, .vBool _ => .isFalse (by intro hc; cases hc)
  | .vObj _, .vNull => .isFalse (by intro hc; cases hc)
  | .vObj _, .vUndefined => .isFalse (by intro hc; cases hc)

/-- Decidable equality for object field lists. -/
def JVal.decEqFields : (a b : List (String × JVal)) → Decidable (a = b)
  | [], [] => .isTrue rfl
  | [], _ :: _ => .isFalse (by intro hc; cases hc)
  | _ :: _, [] => .isFalse (by intro hc; cases hc)
  | (k, v) :: r, (k2, v2) :: r2 =>
    if hk : k = k2 then
      match JVal.decEq v v2 with
      | .isTrue hv =>
        match JVal.decEqFields r r2 with
        | .isTrue hr => .isTrue (by rw [hk, hv, hr])
        | .isFalse hr => .isFalse (by intro hc; cases hc; exact hr rfl)
      | .isFalse hv => .isFalse (by intro hc; cases hc; exact hv rfl)
    else .isFalse (by intro hc; cases hc; exact hk rfl)

end

instance : DecidableEq JVal := JVal.decEq

namespace JVal

/-- JavaScript truthiness of a `JVal`. -/
def truthy : JVal → Bool
  | vStr s => s ≠ ""
  | vNum n => n ≠ 0
  | vBool b => b
  | vNull => false
  | vUndefined => false
  | vObj _ => true

/-- Is this value a string? -/
def isStr : JVal → Bool
  | vStr _ => true
  | _ => false

end JVal

open JVal

/-- Association-list lookup for object fields (first binding wins, as in a
JavaScript object literal read). -/
def fieldLookup (fields : List (String × JVal)) (key : String) : JVal :=
  match fields with
  | [] => vUndefined
  | (k, v) :: rest => if k = key then v else fieldLookup rest key

/-- Property access `acc[part]`.  On an object: field lookup (absent
fields give `undefined`).  On a truthy primitive: `undefined` (see the
modelling conventions).  `getNestedValue` only applies this to truthy
values, so the `null` / `undefined` cases are never reached there. -/
def getMember (v : JVal) (key : String) : JVal :=
  match v with
  | vObj fields => fieldLookup fields key
  | _ => vUndefined

/-- Property access `acc[part]` in the exception-tracking layer: access on
`null` or `undefined` throws a `TypeError` in JavaScript. -/
def getMemberE (v : JVal) (key : String) : Except String JVal :=
  match v with
  | vNull => Except.error "TypeError: cannot read properties of null"
  | vUndefined => Except.error "TypeError: cannot read properties of undefined"
  | _ => Except.ok (getMember v key)

/-- Splitting (String.prototype.split) on the underlying character list:
splitting never drops separators, and the empty string yields `[[]]`. -/
def splitChars (sep : Char) : List Char → List (List Char)
  | [] => [[]]
  | c :: rest =>
    let r := splitChars sep rest
    if c = sep then [] :: r
    else
      match r with
      | [] => [[c]]
      | h :: t => (c :: h) :: t

/-- Splitting a string at a one-character separator.
(Structurally recursive so that concrete instances evaluate inside the
kernel; agrees with the library `String.splitOn` on these inputs.) -/
def splitOnChar (sep : Char) (s : String) : List String :=
  (splitChars sep s.data).map (fun cs => String.mk cs)

/-- Lowercasing (String.prototype.toLowerCase), character by character (ASCII). -/
def jsToLower (s : String) : String :=
  String.mk (s.data.map Char.toLower)

/-- One step of the reduce in `getNestedValue`:
`(acc, part) => acc && acc[part]`. -/
def walkStep (acc : JVal) (part : String) : JVal :=
  if acc.truthy then getMember acc part else acc

/-- The whole reduce: walk the already-split path. -/
def walkPath (obj : JVal) (parts : List String) : JVal :=
  parts.foldl walkStep obj

/-- Line 83 of src/home.js:
the arrow function getNestedValue splits the path at each dot and reduces
with (acc, part) => acc && acc[part] starting from the record. -/
def getNestedValue (obj : JVal) (path : String) : JVal :=
  walkPath obj (splitOnChar '.' path)

/-- One step of the reduce in the exception-tracking layer:
`acc && acc[part]` short-circuits on falsy `acc` and otherwise performs
the (possibly throwing) property access. -/
def walkStepE (acc : JVal) (part : String) : Except String JVal :=
  if acc.truthy then getMemberE acc part else Except.ok acc

/-- The whole reduce in the exception-tracking layer. -/
def walkPathE (obj : JVal) (parts : List String) : Except String JVal :=
  match parts with
  | [] => Except.ok obj
  | p :: rest => do walkPathE (← walkStepE obj p) rest

/-- The nested lookup in the exception-tracking layer. -/
def getNestedValueE (obj : JVal) (path : String) : Except String JVal :=
  walkPathE obj (splitOnChar '.' path)

/-! ## The filter stage -/

/-- Containment (String.prototype.includes): `sub` occurs as a contiguous substring
of `s` (true at some start index, including the empty substring). -/
def strIncludes (s sub : String) : Bool :=
  (List.range (s.data.length + 1)).any (fun i => sub.data.isPrefixOf (s.data.drop i))

/-- The filter predicate of `src/home.js` lines 74-76:
`user.name.toLowerCase().includes(lowercasedQuery)` (with
`lowercasedQuery = searchQuery.toLowerCase()` computed by the caller).
A non-string `name` yields `false` here; the exception-tracking layer
`nameMatchesE` records that JavaScript would throw instead. -/
def nameMatches (lowercasedQuery : String) (u : JVal) : Bool :=
  match getMember u "name" with
  | vStr s => strIncludes (jsToLower s) lowercasedQuery
  | _ => false

/-- Lines 71-77 of src/home.js: if the search query is truthy (non-empty),
keep the users whose lowercased name contains the lowercased query. -/
def filterUsers (users : List JVal) (searchQuery : String) : List JVal :=
  if searchQuery ≠ "" then users.filter (nameMatches (jsToLower searchQuery)) else users

/-- The filter predicate in the exception-tracking layer:
`user.name` throws on a `null`/`undefined` user, and
`.toLowerCase()` throws when `name` is not a string. -/
def nameMatchesE (lowercasedQuery : String) (u : JVal) : Except String Bool := do
  let n ← getMemberE u "name"
  match n with
  | vStr s => pure (strIncludes (jsToLower s) lowercasedQuery)
  | _ => Except.error "TypeError: user.name.toLowerCase is not a function"

/-- Effectful filter, evaluating the predicate left to right as
`Array.prototype.filter` does. -/
def filterME (p : JVal → Except String Bool) : List JVal → Except String (List JVal)
  | [] => pure []
  | u :: rest => do
    let b ← p u
    let r ← filterME p rest
    pure (if b then u :: r else r)

/-- The filter stage in the exception-tracking layer. -/
def filterUsersE (users : List JVal) (searchQuery : String) :
    Except String (List JVal) :=
  if searchQuery ≠ "" then filterME (nameMatchesE (jsToLower searchQuery)) users
  else pure users

/-! ## JavaScript comparison semantics for the sort comparator -/

/-- Decimal digit-run value: `some` its value for a non-empty all-digit
character list, `none` otherwise. -/
def digitsVal (acc : Option Nat) : List Char → Option Nat
  | [] => acc
  | c :: rest =>
    if c.isDigit then digitsVal (some (acc.getD 0 * 10 + (c.toNat - 48))) rest
    else none

/-- Strip leading and trailing whitespace from the character list. -/
def trimChars (cs : List Char) : List Char :=
  ((cs.dropWhile Char.isWhitespace).reverse.dropWhile Char.isWhitespace).reverse

/-- JavaScript `ToNumber`, restricted to the integral values occurring in
this program; `none` models `NaN`.  Strings: whitespace-trimmed, empty
means 0, otherwise an optional sign followed by decimal digits (other
numeric spellings such as fractions or hex do not occur in the modelled
domain and are mapped to `NaN`). -/
def toNumber : JVal → Option Int
  | vUndefined => none
  | vNull => some 0
  | vBool b => some (if b then 1 else 0)
  | vNum n => some n
  | vStr s =>
    match trimChars s.data with
    | [] => some 0
    | '-' :: rest => (digitsVal none rest).map (fun n => -(n : Int))
    | '+' :: rest => (digitsVal none rest).map (fun n => (n : Int))
    | t => (digitsVal none t).map (fun n => (n : Int))
  | vObj _ => none

/-- JavaScript `ToPrimitive` (number hint) for our values: a plain object
stringifies to `"[object Object]"` via `Object.prototype.toString`;
primitives are returned unchanged. -/
def toPrimitive : JVal → JVal
  | vObj _ => vStr "[object Object]"
  | v => v

/-- Lexicographic code-point comparison of character lists (JavaScript
compares strings by code units; the two agree on the ASCII data of this
program). -/
def charListLt : List Char → List Char → Bool
  | [], [] => false
  | [], _ :: _ => true
  | _ :: _, [] => false
  | c :: cs, d :: ds =>
    if c < d then true
    else if d < c then false
    else charListLt cs ds

/-- Comparison `s < t` for JavaScript strings. -/
def strLt (s t : String) : Bool := charListLt s.data t.data

/-- Numeric comparison with `NaN` (`none`) poisoning to `false`. -/
def numLt (x y : Option Int) : Bool :=
  match x, y with
  | some a, some b => decide (a < b)
  | _, _ => false

/-- The abstract relational comparison `a < b`: if both primitives are
strings, code-unit lexicographic comparison; otherwise numeric comparison,
false when either side is `NaN`. -/
def jsLt (a b : JVal) : Bool :=
  match toPrimitive a, toPrimitive b with
  | vStr s, vStr t => strLt s t
  | pa, pb => numLt (toNumber pa) (toNumber pb)

/-- Greater-than is the relational comparison with the operands swapped. -/
def jsGt (a b : JVal) : Bool := jsLt b a

/-- Sort direction state (the strings "ascending" / "descending"). -/
inductive SortDir : Type where
  | ascending
  | descending
deriving DecidableEq

/-- Lines 85-86 of src/home.js: lowercase the resolved value when it is a
string, keep it unchanged otherwise. -/
def lowerIfStr : JVal → JVal
  | vStr s => vStr (jsToLower s)
  | v => v

/-- The resolved comparison key of a record for a sort column:
lowercase the nested value when its typeof is string, keep it as is otherwise. -/
def sortKey (col : String) (u : JVal) : JVal :=
  lowerIfStr (getNestedValue u col)

/-- The comparison outcome of the comparator body (lines 89-95) given the
two resolved keys. -/
def cmpOutcome (dir : SortDir) (valA valB : JVal) : Int :=
  if jsLt valA valB then (match dir with | .ascending => -1 | .descending => 1)
  else if jsGt valA valB then (match dir with | .ascending => 1 | .descending => -1)
  else 0

/-- The sort comparator of `src/home.js` lines 81-96. -/
def userCmp (col : String) (dir : SortDir) (a b : JVal) : Int :=
  cmpOutcome dir (sortKey col a) (sortKey col b)

/-- The string key a record resolves to (junk empty string outside the
string-keyed domain; only used under the string-key hypothesis). -/
def skey (col : String) (u : JVal) : String :=
  match sortKey col u with
  | vStr s => s
  | _ => ""

/-- The comparator in the exception-tracking layer: the only possibly
throwing step is the nested lookup, and `getNestedValueE_ok` shows it
never actually throws. -/
def userCmpE (col : String) (dir : SortDir) (a b : JVal) :
    Except String Int := do
  let ra ← getNestedValueE a col
  let rb ← getNestedValueE b col
  pure (cmpOutcome dir (lowerIfStr ra) (lowerIfStr rb))

/-! ## The sort model

`Array.prototype.sort` since ES2019 is required to be stable, but for an
inconsistent comparator the resulting order is implementation-defined.
We model the V8 TimSort specialised to arrays shorter than 64 elements
(all arrays in this development): the computed minimal run length equals
the array length, so the algorithm finds one initial maximal run —
ascending (kept) or strictly descending (reversed in place) — and then
extends it to the whole array by stable binary insertion. -/

section SortModel

variable {α : Type}

/-- Binary search of the V8 binary insertion sort: narrow the window around
the insertion point; a tie sends the pivot right of the probed element,
which gives stability for consistent comparators. -/
def bsPosAux (cmp : α → α → Int) (pivot : α) (l : List α) :
    Nat → Nat → Nat → Nat
  | 0, lo, _ => lo
  | fuel + 1, lo, hi =>
    if lo < hi then
      if cmp pivot (l.getD ((lo + hi) / 2) pivot) < 0 then
        bsPosAux cmp pivot l fuel lo ((lo + hi) / 2)
      else bsPosAux cmp pivot l fuel ((lo + hi) / 2 + 1) hi
    else lo

/-- The entry point: the fuel `hi - lo` bounds the number of halvings, so
the search below always terminates with `lo = hi`. -/
def bsPos (cmp : α → α → Int) (pivot : α) (l : List α) (lo hi : Nat) : Nat :=
  bsPosAux cmp pivot l (hi - lo) lo hi

/-- Insert the pivot at the position found by binary search over the whole
current prefix. -/
def binInsert (cmp : α → α → Int) (x : α) (l : List α) : List α :=
  l.take (bsPos cmp x l 0 l.length) ++ x :: l.drop (bsPos cmp x l 0 l.length)

/-- Extend an ascending run: take elements while
`comparefn(current, previous) >= 0`. -/
def ascTake (cmp : α → α → Int) : α → List α → List α × List α
  | _, [] => ([], [])
  | prev, y :: ys =>
    if cmp y prev < 0 then ([], y :: ys)
    else
      let p := ascTake cmp y ys
      (y :: p.1, p.2)

/-- Extend a strictly descending run: take elements while
`comparefn(current, previous) < 0`. -/
def descTake (cmp : α → α → Int) : α → List α → List α × List α
  | _, [] => ([], [])
  | prev, y :: ys =>
    if cmp y prev < 0 then
      let p := descTake cmp y ys
      (y :: p.1, p.2)
    else ([], y :: ys)

/-- Run detection of V8 (CountAndMakeRun): the initial maximal ascending run, or a
strictly descending run reversed to be ascending; returns the run and the
unprocessed remainder. -/
def makeRun (cmp : α → α → Int) : List α → List α × List α
  | [] => ([], [])
  | [x] => ([x], [])
  | x :: y :: rest =>
    if cmp y x < 0 then
      let p := descTake cmp y rest
      ((x :: y :: p.1).reverse, p.2)
    else
      let p := ascTake cmp y rest
      (x :: y :: p.1, p.2)

/-- The sort (Array.prototype.sort with comparefn) as implemented by V8 on arrays
shorter than 64 elements. -/
def v8sort (cmp : α → α → Int) (l : List α) : List α :=
  (makeRun cmp l).2.foldl (fun acc x => binInsert cmp x acc) (makeRun cmp l).1

/-- Stable linear insertion: the pivot goes in front of the first element
strictly greater than it.  Reference implementation used to reason about
`v8sort` on consistent comparators. -/
def linInsert (cmp : α → α → Int) (x : α) : List α → List α
  | [] => [x]
  | y :: ys => if cmp x y < 0 then x :: y :: ys else y :: linInsert cmp x ys

/-- Stable insertion sort, processing the input left to right. -/
def linSort (cmp : α → α → Int) (l : List α) : List α :=
  l.foldl (fun acc x => linInsert cmp x acc) []

/-- Slicing (Array.prototype.slice) for non-negative indices:
the elements in `[start, stop)`, clamped to the array. -/
def jsSlice (l : List α) (start stop : Nat) : List α :=
  (l.drop start).take (stop - start)

end SortModel

/-- The comparator induced by a key function into a linear order. -/
def kcmp {α β : Type} [LinearOrder β] (kf : α → β) (a b : α) : Int :=
  if kf a < kf b then -1 else if kf b < kf a then 1 else 0

/-- The per-record non-decreasing relation induced by the keys. -/
def keyLE {α β : Type} [LinearOrder β] (kf : α → β) (a b : α) : Prop :=
  kf a ≤ kf b

/-! ## The pipeline -/

/-- Lines 66-100 of src/home.js (processedUsers): copy, filter by the
search query if truthy, then sort in place if `sortColumn` is truthy. -/
def processedUsers (users : List JVal) (searchQuery sortColumn : String)
    (dir : SortDir) : List JVal :=
  let filteredUsers := filterUsers users searchQuery
  if sortColumn ≠ "" then v8sort (userCmp sortColumn dir) filteredUsers
  else filteredUsers

/-- Lines 102-106 of src/home.js (paginatedUsers):
`from = page * itemsPerPage`, `to = from + itemsPerPage`,
`processedUsers.slice(from, to)`. -/
def paginatedUsers (processed : List JVal) (page itemsPerPage : Nat) :
    List JVal :=
  jsSlice processed (page * itemsPerPage) (page * itemsPerPage + itemsPerPage)

/-- The page count Math.ceil(length / itemsPerPage) of line 177, exact
for a positive `itemsPerPage`. -/
def numberOfPages (len itemsPerPage : Nat) : Nat :=
  (len + itemsPerPage - 1) / itemsPerPage

/-! ## View state and interaction handlers -/

/-- The screen-level state driving the pipeline. -/
structure ViewState where
  searchQuery : String
  sortColumn : String
  sortDirection : SortDir
  page : Nat
  itemsPerPage : Nat
deriving DecidableEq

/-- Lines 110-117 (handleSort): selecting the active column toggles the
direction, selecting another column sets it with direction ascending. -/
def handleSort (column : String) (st : ViewState) : ViewState :=
  if st.sortColumn = column then
    { st with sortDirection :=
        match st.sortDirection with
        | .ascending => .descending
        | .descending => .ascending }
  else { st with sortColumn := column, sortDirection := .ascending }

/-- Lines 119-122 (handleSearch): set the query and reset to page 0. -/
def handleSearch (query : String) (st : ViewState) : ViewState :=
  { st with searchQuery := query, page := 0 }

/-- Line 182 (onItemsPerPageChange, which is setItemsPerPage): only the page
size changes; the page index is left untouched. -/
def handleItemsPerPageChange (n : Nat) (st : ViewState) : ViewState :=
  { st with itemsPerPage := n }

/-- Line 178 (onPageChange): jump to the requested page. -/
def handlePageChange (p : Nat) (st : ViewState) : ViewState :=
  { st with page := p }

/-! ## The login screen (`src/unnamed/part_000`) -/

/-- The email pattern of `validateEmail`:
`^[^\s@]+@[^\s@]+\.[^\s@]+$` — one `@` splitting the string into a
non-empty whitespace-free local part and a domain that contains a dot
with non-empty whitespace-free text on both sides (equivalently: an
internal dot). -/
def validateEmail (email : String) : Bool :=
  match splitOnChar '@' email with
  | [localPart, domain] =>
    localPart ≠ "" &&
    localPart.data.all (fun c => !c.isWhitespace) &&
    domain.data.all (fun c => !c.isWhitespace) &&
    ((domain.data.drop 1).dropLast).contains '.'
  | _ => false

/-- The persisted session store: `AsyncStorage` key `"user"`.  The stored
payload `JSON.stringify({ email })` is modelled by the email it wraps. -/
structure SessionStore where
  user : Option String
deriving DecidableEq

/-- The observable outcome of a login attempt. -/
inductive LoginOutcome : Type where
  | alertValidationError
  | alertInvalidEmail
  | navigateHome
  | alertLoginFailed
deriving DecidableEq

/-- The login handler of the login screen: empty field → validation alert;
pattern failure → invalid-email alert; the literal credential pair →
write the session and navigate; anything else → failure alert. -/
def handleLogin (email pass : String) (store : SessionStore) :
    LoginOutcome × SessionStore :=
  if email = "" ∨ pass = "" then (.alertValidationError, store)
  else if ¬ validateEmail email then (.alertInvalidEmail, store)
  else if email = "test@gmail.com" ∧ pass = "pass123" then
    (.navigateHome, { user := some email })
  else (.alertLoginFailed, store)

/-- Is this value an object (the only traversable structure here)? -/
def JVal.isObj : JVal → Bool
  | vObj _ => true
  | _ => false

/-- A twelve-record collection (ids 0..11, all named "user"). -/
def users12 : List JVal :=
  (List.range 12).map (fun i => vObj [("id", vNum i), ("name", vStr "user")])

/-- Four records for the stability counterexample: cities "c", "b",
missing, "a" (ids 1..4). -/
def stabCex : List JVal :=
  [vObj [("id", vNum 1), ("city", vStr "c")],
   vObj [("id", vNum 2), ("city", vStr "b")],
   vObj [("id", vNum 3)],
   vObj [("id", vNum 4), ("city", vStr "a")]]

/-- Three records with string cities ("b", "a", "a"-tie) for witnesses. -/
def demoUsers : List JVal :=
  [vObj [("id", vNum 1), ("city", vStr "b")],
   vObj [("id", vNum 2), ("city", vStr "a")],
   vObj [("id", vNum 3), ("city", vStr "a")]]

/-- Four records for the round-trip counterexample: cities "b", "a",
missing, "c" (ids 1..4). -/
def tripCex : List JVal :=
  [vObj [("id", vNum 1), ("city", vStr "b")],
   vObj [("id", vNum 2), ("city", vStr "a")],
   vObj [("id", vNum 3)],
   vObj [("id", vNum 4), ("city", vStr "c")]]

theorem walkStepE_ok (acc : JVal) (part : String) :
    walkStepE acc part = Except.ok (walkStep acc part) := by
  unfold walkStepE walkStep
  by_cases h : acc.truthy
  · simp only [h, if_pos]
    cases acc <;> simp_all [JVal.truthy, getMemberE]
  · simp [h]

theorem walkPathE_ok (parts : List String) (obj : JVal) :
    walkPathE obj parts = Except.ok (walkPath obj parts) := by
  induction parts generalizing obj with
  | nil => rfl
  | cons p rest ih =>
    unfold walkPathE walkPath
    rw [walkStepE_ok]
    simpa [List.foldl_cons] using ih (walkStep obj p)

/-- The nested-path lookup never throws: the truthiness guard prevents
property access on `null` / `undefined`. -/
theorem getNestedValueE_ok (obj : JVal) (path : String) :
    getNestedValueE obj path = Except.ok (getNestedValue obj path) :=
  walkPathE_ok _ _

/-- A falsy accumulator short-circuits the whole remaining walk and is
returned as-is. -/
theorem walkPath_falsy (parts : List String) (v : JVal)
    (h : v.truthy = false) : walkPath v parts = v := by
  induction parts with
  | nil => rfl
  | cons p rest ih => simpa [walkPath, walkStep, h] using ih

theorem nameMatchesE_ok (q : String) (u : JVal)
    (h : (getMember u "name").isStr = true) :
    nameMatchesE q u = Except.ok (nameMatches q u) := by
  cases u with
  | vObj fields =>
    cases hm : getMember (vObj fields) "name" with
    | vStr s =>
      have he : getMemberE (vObj fields) "name" = Except.ok (vStr s) := by
        have h0 : getMemberE (vObj fields) "name" =
            Except.ok (getMember (vObj fields) "name") := rfl
        rw [h0, hm]
      unfold nameMatchesE nameMatches
      rw [he, hm]
      rfl
    | vNum n => rw [hm] at h; simp [JVal.isStr] at h
    | vBool b => rw [hm] at h; simp [JVal.isStr] at h
    | vNull => rw [hm] at h; simp [JVal.isStr] at h
    | vUndefined => rw [hm] at h; simp [JVal.isStr] at h
    | vObj f2 => rw [hm] at h; simp [JVal.isStr] at h
  | vStr s => simp [getMember, JVal.isStr] at h
  | vNum n => simp [getMember, JVal.isStr] at h
  | vBool b => simp [getMember, JVal.isStr] at h
  | vNull => simp [getMember, JVal.isStr] at h
  | vUndefined => simp [getMember, JVal.isStr] at h

theorem filterME_ok (q : String) (users : List JVal)
    (h : ∀ u ∈ users, (getMember u "name").isStr = true) :
    filterME (nameMatchesE q) users =
      Except.ok (users.filter (nameMatches q)) := by
  induction users with
  | nil => rfl
  | cons u rest ih =>
    have hu := h u (List.mem_cons_self u rest)
    have hrest : ∀ v ∈ rest, (getMember v "name").isStr = true :=
      fun v hv => h v (List.mem_cons_of_mem u hv)
    unfold filterME
    rw [nameMatchesE_ok q u hu, ih hrest]
    cases hb : nameMatches q u
    · rw [List.filter_cons, hb]
      rfl
    · rw [List.filter_cons, hb]
      rfl

/-- The filter stage never throws on the documented domain (every
record carries a string `name`). -/
theorem filterUsersE_ok (users : List JVal) (q : String)
    (h : ∀ u ∈ users, (getMember u "name").isStr = true) :
    filterUsersE users q = Except.ok (filterUsers users q) := by
  unfold filterUsersE filterUsers
  by_cases hq : q ≠ ""
  · rw [if_pos hq, if_pos hq]
    exact filterME_ok (jsToLower q) users h
  · rw [if_neg hq, if_neg hq]
    rfl

/-- The comparator never throws, for any records and any sort column. -/
theorem userCmpE_ok (col : String) (dir : SortDir) (a b : JVal) :
    userCmpE col dir a b = Except.ok (userCmp col dir a b) := by
  unfold userCmpE userCmp sortKey
  rw [getNestedValueE_ok, getNestedValueE_ok]
  rfl

/-! ## Helper lemmas: the comparator on missing keys -/

theorem getMember_of_not_isObj (v : JVal) (key : String)
    (h : v.isObj = false) : getMember v key = vUndefined := by
  cases v <;> first | rfl | simp [JVal.isObj] at h

theorem numLt_none_right (x : Option Int) : numLt x none = false := by
  cases x <;> rfl

theorem jsLt_undefined_left (v : JVal) : jsLt vUndefined v = false := by
  cases v <;> rfl

theorem jsLt_undefined_right (v : JVal) : jsLt v vUndefined = false := by
  cases v with
  | vStr s =>
    show numLt (toNumber (vStr s)) (toNumber vUndefined) = false
    exact numLt_none_right _
  | vNum n => rfl
  | vBool b => cases b <;> rfl
  | vNull => rfl
  | vUndefined => rfl
  | vObj fields => rfl

theorem sortKey_undefined (col : String) (a : JVal)
    (h : getNestedValue a col = vUndefined) : sortKey col a = vUndefined := by
  unfold sortKey
  rw [h]
  rfl

theorem cmpOutcome_undefined_left (dir : SortDir) (v : JVal) :
    cmpOutcome dir vUndefined v = 0 := by
  unfold cmpOutcome jsGt
  rw [jsLt_undefined_left, jsLt_undefined_right]
  rfl

theorem cmpOutcome_undefined_right (dir : SortDir) (v : JVal) :
    cmpOutcome dir v vUndefined = 0 := by
  unfold cmpOutcome jsGt
  rw [jsLt_undefined_left, jsLt_undefined_right]
  rfl

/-! ## C5 — missing-path comparison quirk -/

/-- C5: whenever the sort-field path of one record fails to resolve
(`undefined`), the comparator returns 0 against every other record, in
both argument orders and for both directions; and this tie relation is
not transitive, so the induced order is not a total order (witnessed on
the `"city"` column by records with cities `3`, missing, `5`). -/
theorem C5_missing_key_ties (col : String) (dir : SortDir) (a b : JVal)
    (h : getNestedValue a col = vUndefined) :
    userCmp col dir a b = 0 ∧ userCmp col dir b a = 0 ∧
    (∃ x y z : JVal,
      userCmp "city" SortDir.ascending x y = 0 ∧
      userCmp "city" SortDir.ascending y z = 0 ∧
      userCmp "city" SortDir.ascending x z ≠ 0) := by
  refine ⟨?_, ?_, ?_⟩
  · unfold userCmp
    rw [sortKey_undefined col a h]
    exact cmpOutcome_undefined_left dir _
  · unfold userCmp
    rw [sortKey_undefined col a h]
    exact cmpOutcome_undefined_right dir _
  · exact ⟨vObj [("city", vNum 3)], vObj [], vObj [("city", vNum 5)],
      by decide, by decide, by decide⟩

/-- Witness for C5 at a concrete record with a missing `"city"` path. -/
theorem C5_missing_key_ties_witness :
    userCmp "city" SortDir.ascending (vObj []) (vObj [("city", vNum 3)]) = 0 ∧
    userCmp "city" SortDir.ascending (vObj [("city", vNum 3)]) (vObj []) = 0 :=
  ⟨(C5_missing_key_ties "city" SortDir.ascending (vObj [])
      (vObj [("city", vNum 3)]) rfl).1,
   (C5_missing_key_ties "city" SortDir.ascending (vObj [])
      (vObj [("city", vNum 3)]) rfl).2.1⟩

/-! ## C1 — the filter stage -/

theorem nameMatches_iff (lq : String) (u : JVal) :
    nameMatches lq u = true ↔
      ∃ s, getMember u "name" = vStr s ∧ strIncludes (jsToLower s) lq = true := by
  unfold nameMatches
  cases hm : getMember u "name" <;> simp [hm]

/-- C1: with an empty search term the filter stage is the identity;
otherwise a record is retained exactly when it is in the input and its
lowercased `name` contains the lowercased term as a substring; retained
records keep their relative input order (the output is a sublist). -/
theorem C1_filter_stage (users : List JVal) (q : String) :
    (q = "" → filterUsers users q = users) ∧
    (filterUsers users q).Sublist users ∧
    (∀ u, u ∈ filterUsers users q ↔
      (u ∈ users ∧ (q = "" ∨ ∃ s, getMember u "name" = vStr s ∧
        strIncludes (jsToLower s) (jsToLower q) = true))) := by
  refine ⟨?_, ?_, ?_⟩
  · intro h
    simp [filterUsers, h]
  · unfold filterUsers
    by_cases hq : q ≠ ""
    · rw [if_pos hq]
      exact List.filter_sublist users
    · rw [if_neg hq]
  · intro u
    by_cases hq : q = ""
    · simp [filterUsers, hq]
    · unfold filterUsers
      rw [if_pos hq, List.mem_filter, nameMatches_iff]
      simp [hq]

/-- Witness for C1 on the scenario of the spec: users Bob, alice, Carol and
search term `"a"` retain alice and Carol but not Bob, in input order. -/
theorem C1_filter_stage_witness :
    ("" = "" → filterUsers [vObj [("name", vStr "Bob")]] "" =
      [vObj [("name", vStr "Bob")]]) ∧
    (vObj [("name", vStr "alice")] ∈
      filterUsers [vObj [("name", vStr "Bob")], vObj [("name", vStr "alice")],
        vObj [("name", vStr "Carol")]] "a" ↔
      (vObj [("name", vStr "alice")] ∈
        [vObj [("name", vStr "Bob")], vObj [("name", vStr "alice")],
          vObj [("name", vStr "Carol")]] ∧
        ("a" = "" ∨ ∃ s, getMember (vObj [("name", vStr "alice")]) "name" =
          vStr s ∧ strIncludes (jsToLower s) (jsToLower "a") = true))) :=
  ⟨(C1_filter_stage [vObj [("name", vStr "Bob")]] "").1,
   (C1_filter_stage [vObj [("name", vStr "Bob")], vObj [("name", vStr "alice")],
      vObj [("name", vStr "Carol")]] "a").2.2 (vObj [("name", vStr "alice")])⟩

/-! ## C7 / C10 — the nested-path accessor -/

/-- C7 counterexample: resolving `"address.city"` against a record whose
`address` is the falsy-but-present value `0` yields `0` itself, not the
distinguished missing result (`undefined`). -/
theorem C7_counterexample :
    getNestedValue (vObj [("address", vNum 0)]) "address.city" = vNum 0 ∧
    vNum 0 ≠ vUndefined := ⟨rfl, fun h => JVal.noConfusion h⟩

/-- C7 amended: `resolve` splits the path on `.` and walks one segment at
a time; an absent segment, or a truthy non-object intermediate, yields
`undefined` (missing); but a falsy intermediate (0, empty string, false,
null, undefined) short-circuits the walk and is returned as-is; and the
walk never throws. -/
theorem C7_amended :
    (∀ obj path, getNestedValueE obj path =
      Except.ok (getNestedValue obj path)) ∧
    (∀ obj path, getNestedValue obj path =
      walkPath obj (splitOnChar '.' path)) ∧
    (∀ (v : JVal) (part : String) (parts : List String),
      walkPath v (part :: parts) =
        if v.truthy = true then walkPath (getMember v part) parts else v) ∧
    (∀ (fields : List (String × JVal)) (part : String) (parts : List String),
      fieldLookup fields part = vUndefined →
      walkPath (vObj fields) (part :: parts) = vUndefined) ∧
    (∀ (v : JVal) (part : String) (parts : List String),
      v.truthy = true → v.isObj = false →
      walkPath v (part :: parts) = vUndefined) ∧
    (∀ (v : JVal) (parts : List String),
      v.truthy = false → walkPath v parts = v) := by
  have hcons : ∀ (v : JVal) (part : String) (parts : List String),
      walkPath v (part :: parts) =
        if v.truthy = true then walkPath (getMember v part) parts else v := by
    intro v part parts
    by_cases ht : v.truthy = true
    · simp [walkPath, walkStep, ht]
    · rw [if_neg ht]
      have ht2 : v.truthy = false := by
        cases hv : v.truthy
        · rfl
        · exact absurd hv ht
      have : walkStep v part = v := by unfold walkStep; rw [ht2]; rfl
      calc walkPath v (part :: parts)
          = walkPath (walkStep v part) parts := rfl
        _ = walkPath v parts := by rw [this]
        _ = v := walkPath_falsy parts v ht2
  refine ⟨getNestedValueE_ok, fun obj path => rfl, hcons, ?_, ?_,
    fun v parts => walkPath_falsy parts v⟩
  · intro fields part parts h
    rw [hcons]
    rw [if_pos (show (vObj fields).truthy = true from rfl)]
    have hm : getMember (vObj fields) part = vUndefined := h
    rw [hm]
    exact walkPath_falsy parts vUndefined rfl
  · intro v part parts ht hobj
    rw [hcons, if_pos ht, getMember_of_not_isObj v part hobj]
    exact walkPath_falsy parts vUndefined rfl

/-- Witness for C7 amended at concrete inputs: an absent field, a truthy
primitive intermediate, and a falsy (`null`) intermediate. -/
theorem C7_amended_witness :
    walkPath (vObj []) ["city"] = vUndefined ∧
    walkPath (vNum 5) ["city"] = vUndefined ∧
    walkPath vNull ["city"] = vNull :=
  ⟨C7_amended.2.2.2.1 [] "city" [] rfl,
   C7_amended.2.2.2.2.1 (vNum 5) "city" [] rfl rfl,
   C7_amended.2.2.2.2.2 vNull ["city"] rfl⟩

/-- C10: the nested lookup never throws (property access on a truthy
primitive just yields `undefined`), and a falsy-but-present intermediate
short-circuits the walk and is returned itself — concretely, resolving
`"address.city"` against a record whose `address` is `0` yields `0`. -/
theorem C10_falsy_short_circuit :
    (∀ obj path, getNestedValueE obj path =
      Except.ok (getNestedValue obj path)) ∧
    (∀ (v : JVal) (part : String) (parts : List String),
      v.truthy = true → v.isObj = false →
      walkPath v (part :: parts) = vUndefined) ∧
    (∀ (v : JVal) (parts : List String),
      v.truthy = false → walkPath v parts = v) ∧
    getNestedValue (vObj [("address", vNum 0)]) "address.city" = vNum 0 := by
  refine ⟨getNestedValueE_ok, ?_, fun v parts => walkPath_falsy parts v, rfl⟩
  intro v part parts ht hobj
  have h1 : walkStep v part = vUndefined := by
    unfold walkStep
    rw [if_pos ht, getMember_of_not_isObj v part hobj]
  calc walkPath v (part :: parts)
      = walkPath (walkStep v part) parts := rfl
    _ = vUndefined := by rw [h1]; exact walkPath_falsy parts vUndefined rfl

/-- Witness for C10 at concrete inputs. -/
theorem C10_falsy_short_circuit_witness :
    getNestedValueE (vObj [("address", vNum 0)]) "address.city" =
      Except.ok (getNestedValue (vObj [("address", vNum 0)]) "address.city") ∧
    walkPath (vStr "text") ["city"] = vUndefined ∧
    walkPath (vNum 0) ["city"] = vNum 0 :=
  ⟨C10_falsy_short_circuit.1 (vObj [("address", vNum 0)]) "address.city",
   C10_falsy_short_circuit.2.1 (vStr "text") "city" [] rfl rfl,
   C10_falsy_short_circuit.2.2.1 (vNum 0) ["city"] rfl⟩

/-! ## C9 — the credential gate -/

/-- C9: a session is created (key `"user"` written) and navigation
proceeds exactly for the literal pair `(test@gmail.com, pass123)`; every
other input leaves the store unchanged and raises an alert instead of
navigating. -/
theorem C9_credential_gate (e p : String) (st : SessionStore) :
    ((handleLogin e p st).1 = LoginOutcome.navigateHome ↔
      (e = "test@gmail.com" ∧ p = "pass123")) ∧
    ((e = "test@gmail.com" ∧ p = "pass123") →
      handleLogin e p st = (LoginOutcome.navigateHome, ⟨some e⟩)) ∧
    (¬(e = "test@gmail.com" ∧ p = "pass123") →
      (handleLogin e p st).2 = st ∧
      (handleLogin e p st).1 ≠ LoginOutcome.navigateHome) := by
  by_cases hc : e = "test@gmail.com" ∧ p = "pass123"
  · obtain ⟨he, hp⟩ := hc
    subst he
    subst hp
    exact ⟨⟨fun _ => ⟨rfl, rfl⟩, fun _ => rfl⟩, fun _ => rfl,
      fun hn => absurd ⟨rfl, rfl⟩ hn⟩
  · have hstore : (handleLogin e p st).2 = st ∧
        (handleLogin e p st).1 ≠ LoginOutcome.navigateHome := by
      unfold handleLogin
      by_cases h1 : e = "" ∨ p = ""
      · rw [if_pos h1]
        exact ⟨rfl, fun h => LoginOutcome.noConfusion h⟩
      · rw [if_neg h1]
        by_cases h2 : validateEmail e = true
        · rw [if_neg (not_not_intro h2), if_neg hc]
          exact ⟨rfl, fun h => LoginOutcome.noConfusion h⟩
        · rw [if_pos h2]
          exact ⟨rfl, fun h => LoginOutcome.noConfusion h⟩
    exact ⟨⟨fun hnav => (hstore.2 hnav).elim, fun h => absurd h hc⟩,
      fun h => absurd h hc, fun _ => hstore⟩

/-- Witness for C9: the literal pair creates the session and navigates;
a wrong password leaves the store untouched and does not navigate. -/
theorem C9_credential_gate_witness :
    handleLogin "test@gmail.com" "pass123" ⟨none⟩ =
      (LoginOutcome.navigateHome, ⟨some "test@gmail.com"⟩) ∧
    ((handleLogin "test@gmail.com" "wrong" ⟨none⟩).2 = ⟨none⟩ ∧
      (handleLogin "test@gmail.com" "wrong" ⟨none⟩).1 ≠
        LoginOutcome.navigateHome) :=
  ⟨(C9_credential_gate "test@gmail.com" "pass123" ⟨none⟩).2.1 ⟨rfl, rfl⟩,
   (C9_credential_gate "test@gmail.com" "wrong" ⟨none⟩).2.2
     (fun hpair => absurd hpair.2 (by decide))⟩

/-! ## C6 — the view-state invariant -/

/-- C6 counterexample: starting from a state satisfying the claimed
invariant (page 2 of 3 at page size 5 over 12 records), changing the
page size to 15 through its handler leaves `page = 2` while the number
of pages becomes 1, so the page index is NOT re-clamped into
`[0, totalPages - 1]`. -/
theorem C6_counterexample :
    2 ≤ numberOfPages
        (processedUsers users12 "" "name" SortDir.ascending).length 5 - 1 ∧
    (handleItemsPerPageChange 15
      ⟨"", "name", SortDir.ascending, 2, 5⟩).page = 2 ∧
    numberOfPages (processedUsers users12 "" "name" SortDir.ascending).length
      (handleItemsPerPageChange 15
        ⟨"", "name", SortDir.ascending, 2, 5⟩).itemsPerPage = 1 ∧
    ¬((handleItemsPerPageChange 15
        ⟨"", "name", SortDir.ascending, 2, 5⟩).page ≤
      numberOfPages (processedUsers users12 "" "name" SortDir.ascending).length
        (handleItemsPerPageChange 15
          ⟨"", "name", SortDir.ascending, 2, 5⟩).itemsPerPage - 1) := by
  refine ⟨by decide, rfl, by decide, by decide⟩

/-- C6 amended: changing the search term resets the page index to 0
(the only re-clamping that exists); changing the page size leaves the
page index untouched — no re-clamping happens there. -/
theorem C6_amended (q : String) (n : Nat) (st : ViewState) :
    (handleSearch q st).page = 0 ∧
    (handleSearch q st).searchQuery = q ∧
    (handleItemsPerPageChange n st).page = st.page ∧
    (handleItemsPerPageChange n st).itemsPerPage = n :=
  ⟨rfl, rfl, rfl, rfl⟩

/-! ## C3 — pagination coverage -/

theorem jsSlice_zero {α : Type} (l : List α) (n : Nat) :
    jsSlice l 0 n = l.take n := by
  simp [jsSlice]

theorem jsSlice_shift {α : Type} (l : List α) (p n : Nat) :
    jsSlice l ((p + 1) * n) ((p + 1) * n + n) =
      jsSlice (l.drop n) (p * n) (p * n + n) := by
  unfold jsSlice
  rw [List.drop_drop, Nat.add_sub_cancel_left, Nat.add_sub_cancel_left]
  have h : n + p * n = (p + 1) * n := by ring
  rw [h]

theorem numberOfPages_zero {α : Type} (l : List α) (n : Nat) (hn : 0 < n)
    (h : numberOfPages l.length n = 0) : l = [] := by
  unfold numberOfPages at h
  have hlt : l.length + n - 1 < n := (Nat.div_eq_zero_iff hn).mp h
  have : l.length = 0 := by omega
  exact List.length_eq_zero.mp this

theorem numberOfPages_drop {α : Type} (l : List α) (n k : Nat) (hn : 0 < n)
    (h : numberOfPages l.length n = k + 1) :
    numberOfPages (l.drop n).length n = k := by
  unfold numberOfPages at h ⊢
  rw [List.length_drop]
  by_cases hl : l.length ≤ n
  · have hk : k = 0 := by
      have h1 : l.length + n - 1 < 2 * n := by omega
      have h2 : (l.length + n - 1) / n < 2 :=
        Nat.div_lt_of_lt_mul (by omega)
      omega
    have : l.length - n = 0 := by omega
    rw [this, hk]
    have h0 : (n - 1) / n = 0 := (Nat.div_eq_zero_iff hn).mpr (by omega)
    simp [h0]
  · have h1 : l.length - n + n - 1 = l.length - 1 := by omega
    have h2 : l.length + n - 1 = (l.length - 1) + n := by omega
    rw [h1]
    rw [h2, Nat.add_div_right _ hn] at h
    omega

theorem pages_concat {α : Type} (n : Nat) (hn : 0 < n) (l : List α) :
    ((List.range (numberOfPages l.length n)).map
      (fun p => jsSlice l (p * n) (p * n + n))).flatten = l := by
  generalize hk : numberOfPages l.length n = k
  induction k generalizing l with
  | zero =>
    rw [numberOfPages_zero l n hn hk]
    rfl
  | succ k ih =>
    rw [List.range_succ_eq_map, List.map_cons, List.map_map, List.flatten_cons]
    have hshift :
        ((List.range k).map ((fun p => jsSlice l (p * n) (p * n + n)) ∘
          Nat.succ)).flatten = l.drop n := by
      have hfun : ((fun p => jsSlice l (p * n) (p * n + n)) ∘ Nat.succ) =
          fun p => jsSlice (l.drop n) (p * n) (p * n + n) := by
        funext p
        have : Nat.succ p = p + 1 := rfl
        simp only [Function.comp, this]
        exact jsSlice_shift l p n
      rw [hfun]
      exact ih (l.drop n) (numberOfPages_drop l n k hn hk)
    rw [hshift]
    have h0 : (0 : Nat) * n = 0 := by ring
    rw [h0, jsSlice_zero]
    simp

/-- C3: for a positive page size, concatenating pages `0 .. totalPages-1`
reconstructs the processed sequence exactly (no gaps, no duplicates);
`numberOfPages` is the exact ceiling of `length / pageSize`; and for 12
records at page size 5 there are 3 pages, page 0 carrying 5 rows and
page 2 carrying 2. -/
theorem C3_pagination (l : List JVal) (n : Nat) (hn : 0 < n) :
    ((List.range (numberOfPages l.length n)).map
      (fun p => paginatedUsers l p n)).flatten = l ∧
    l.length ≤ numberOfPages l.length n * n ∧
    numberOfPages l.length n * n < l.length + n ∧
    (l.length = 12 → numberOfPages l.length 5 = 3 ∧
      (paginatedUsers l 0 5).length = 5 ∧ (paginatedUsers l 2 5).length = 2) := by
  refine ⟨?_, ?_, ?_, ?_⟩
  · exact pages_concat n hn l
  · have hdm := Nat.div_add_mod (l.length + n - 1) n
    have hmlt : (l.length + n - 1) % n < n := Nat.mod_lt _ hn
    unfold numberOfPages
    rw [Nat.mul_comm]
    omega
  · have hdm := Nat.div_add_mod (l.length + n - 1) n
    have hmlt : (l.length + n - 1) % n < n := Nat.mod_lt _ hn
    unfold numberOfPages
    rw [Nat.mul_comm]
    omega
  · intro h12
    refine ⟨by rw [h12]; rfl, ?_, ?_⟩
    · simp [paginatedUsers, jsSlice, h12]
    · simp [paginatedUsers, jsSlice, h12]

/-- Witness for C3 on the 12-record collection at page size 5. -/
theorem C3_pagination_witness :
    ((List.range (numberOfPages users12.length 5)).map
      (fun p => paginatedUsers users12 p 5)).flatten = users12 ∧
    numberOfPages users12.length 5 = 3 ∧
    (paginatedUsers users12 0 5).length = 5 ∧
    (paginatedUsers users12 2 5).length = 2 :=
  ⟨(C3_pagination users12 5 (by decide)).1,
   ((C3_pagination users12 5 (by decide)).2.2.2 rfl).1,
   ((C3_pagination users12 5 (by decide)).2.2.2 rfl).2.1,
   ((C3_pagination users12 5 (by decide)).2.2.2 rfl).2.2⟩

/-! ## C4 — pipeline totality -/

/-- C4: on the documented domain (records with string names), the filter
never throws; the sort comparator never throws for any records and any
sort field (unknown fields included); the pipeline yields `[]` on an
empty collection; and an out-of-range page yields an empty slice instead
of failing. -/
theorem C4_pipeline_total (users : List JVal) (q col : String) (dir : SortDir)
    (hdom : ∀ u ∈ users, (getMember u "name").isStr = true) :
    filterUsersE users q = Except.ok (filterUsers users q) ∧
    (∀ a b, userCmpE col dir a b = Except.ok (userCmp col dir a b)) ∧
    processedUsers [] q col dir = [] ∧
    (∀ (l : List JVal) (page n : Nat), l.length ≤ page * n →
      paginatedUsers l page n = []) := by
  refine ⟨filterUsersE_ok users q hdom, fun a b => userCmpE_ok col dir a b,
    ?_, ?_⟩
  · have hf : filterUsers [] q = [] := by
      unfold filterUsers
      split <;> rfl
    unfold processedUsers
    rw [hf]
    split <;> rfl
  · intro l page n h
    unfold paginatedUsers jsSlice
    rw [List.drop_eq_nil_of_le h]
    exact List.take_nil

/-- Witness for C4 on the 12-record collection, a non-empty query, and
an out-of-range page. -/
theorem C4_pipeline_total_witness :
    filterUsersE users12 "a" = Except.ok (filterUsers users12 "a") ∧
    processedUsers [] "a" "name" SortDir.ascending = [] ∧
    paginatedUsers users12 3 5 = [] :=
  ⟨(C4_pipeline_total users12 "a" "name" SortDir.ascending (by decide)).1,
   (C4_pipeline_total users12 "a" "name" SortDir.ascending (by decide)).2.2.1,
   (C4_pipeline_total users12 "a" "name" SortDir.ascending (by decide)).2.2.2
     users12 3 5 (by decide)⟩

/-! ## Sort theory for consistent (key-based) comparators

The comparator of `src/home.js` is consistent exactly when all resolved
keys have one type; in the documented domain (`name`, `email`,
`address.city` are strings on every record) the resolved keys are
strings.  This section develops the theory of `v8sort` for comparators
of the form "compare the keys `kf` in a linear order", which covers both
directions (descending uses the dual order). -/

section KeySort

variable {α : Type} {β : Type} [LinearOrder β]

theorem kcmp_neg_iff (kf : α → β) (a b : α) :
    kcmp kf a b < 0 ↔ kf a < kf b := by
  unfold kcmp
  split_ifs with h1 h2
  · exact iff_of_true (by norm_num) h1
  · exact iff_of_false (by norm_num) (fun h => (lt_asymm h) h2)
  · exact iff_of_false (by norm_num) h1

theorem kcmp_nonpos_iff (kf : α → β) (a b : α) :
    kcmp kf a b ≤ 0 ↔ kf a ≤ kf b := by
  unfold kcmp
  split_ifs with h1 h2
  · exact iff_of_true (by norm_num) (le_of_lt h1)
  · exact iff_of_false (by norm_num) (not_le.mpr h2)
  · exact iff_of_true le_rfl (le_of_not_lt h2)

theorem kcmp_eq_zero_iff (kf : α → β) (a b : α) :
    kcmp kf a b = 0 ↔ kf a = kf b := by
  unfold kcmp
  split_ifs with h1 h2
  · exact iff_of_false (by norm_num) (ne_of_lt h1)
  · exact iff_of_false (by norm_num)
      (fun h => absurd h2 (by rw [h]; exact lt_irrefl _))
  · exact iff_of_true rfl (le_antisymm (le_of_not_lt h2) (le_of_not_lt h1))

theorem kcmp_not_neg (kf : α → β) {a b : α} (h : ¬ kcmp kf a b < 0) :
    kf b ≤ kf a :=
  le_of_not_lt (fun hl => h ((kcmp_neg_iff kf a b).mpr hl))

theorem linInsert_perm (cmp : α → α → Int) (x : α) :
    ∀ l : List α, List.Perm (linInsert cmp x l) (x :: l) := by
  intro l
  induction l with
  | nil => rfl
  | cons y ys ih =>
    unfold linInsert
    by_cases h : cmp x y < 0
    · rw [if_pos h]
    · rw [if_neg h]
      exact (ih.cons y).trans (List.Perm.swap x y ys)

theorem mem_linInsert (cmp : α → α → Int) (x z : α) (l : List α) :
    z ∈ linInsert cmp x l ↔ z = x ∨ z ∈ l := by
  rw [(linInsert_perm cmp x l).mem_iff, List.mem_cons]

theorem linInsert_sorted (kf : α → β) (x : α) (l : List α)
    (h : List.Pairwise (keyLE kf) l) :
    List.Pairwise (keyLE kf) (linInsert (kcmp kf) x l) := by
  induction l with
  | nil => exact List.pairwise_singleton _ x
  | cons y ys ih =>
    rcases List.pairwise_cons.mp h with ⟨hy, hys⟩
    unfold linInsert
    by_cases hcmp : kcmp kf x y < 0
    · rw [if_pos hcmp]
      have hxy : kf x < kf y := (kcmp_neg_iff kf x y).mp hcmp
      refine List.pairwise_cons.mpr ⟨?_, h⟩
      intro z hz
      rcases List.mem_cons.mp hz with hzy | hzys
      · rw [hzy]; exact le_of_lt hxy
      · exact le_of_lt (lt_of_lt_of_le hxy (hy z hzys))
    · rw [if_neg hcmp]
      have hyx : kf y ≤ kf x := kcmp_not_neg kf hcmp
      refine List.pairwise_cons.mpr ⟨?_, ih hys⟩
      intro z hz
      rcases (mem_linInsert (kcmp kf) x z ys).mp hz with hzx | hzys
      · rw [hzx]; exact hyx
      · exact hy z hzys

theorem linInsert_filter_of_neg (cmp : α → α → Int) (p : α → Bool) (x : α)
    (l : List α) (hpx : p x = false) :
    (linInsert cmp x l).filter p = l.filter p := by
  induction l with
  | nil => simp [linInsert, hpx]
  | cons y ys ih =>
    unfold linInsert
    by_cases h : cmp x y < 0
    · rw [if_pos h]
      simp [List.filter_cons, hpx]
    · rw [if_neg h]
      rw [List.filter_cons, List.filter_cons, ih]

theorem linInsert_filter_of_pos (kf : α → β) (p : α → Bool) (x : α)
    (l : List α) (hpx : p x = true)
    (hp : ∀ a b, p a = true → p b = true → kf a = kf b)
    (hsort : List.Pairwise (keyLE kf) l) :
    (linInsert (kcmp kf) x l).filter p = l.filter p ++ [x] := by
  induction l with
  | nil => simp [linInsert, hpx]
  | cons y ys ih =>
    rcases List.pairwise_cons.mp hsort with ⟨hy, hys⟩
    unfold linInsert
    by_cases h : kcmp kf x y < 0
    · rw [if_pos h]
      have hxy : kf x < kf y := (kcmp_neg_iff kf x y).mp h
      have hnil : (y :: ys).filter p = [] := by
        rw [List.filter_eq_nil_iff]
        intro z hz hpz
        have hkzx : kf z = kf x := hp z x hpz hpx
        rcases List.mem_cons.mp hz with hzy | hzys
        · rw [hzy] at hkzx
          exact absurd hkzx (ne_of_gt hxy)
        · have : kf y ≤ kf z := hy z hzys
          have : kf x < kf z := lt_of_lt_of_le hxy this
          exact absurd hkzx (ne_of_gt this)
      rw [List.filter_cons_of_pos hpx, hnil]
      rfl
    · rw [if_neg h]
      by_cases hpy : p y = true
      · rw [List.filter_cons_of_pos hpy, List.filter_cons_of_pos hpy,
          ih hys]
        rfl
      · have hpy2 : p y = false := by
          cases hv : p y
          · rfl
          · exact absurd hv hpy
        rw [List.filter_cons_of_neg (by rw [hpy2]; exact Bool.false_ne_true),
          List.filter_cons_of_neg (by rw [hpy2]; exact Bool.false_ne_true),
          ih hys]

end KeySort

section KeySort2

variable {α : Type} {β : Type} [LinearOrder β]

theorem foldl_linInsert_perm (cmp : α → α → Int) :
    ∀ (l acc : List α),
      List.Perm (l.foldl (fun a x => linInsert cmp x a) acc) (acc ++ l) := by
  intro l
  induction l with
  | nil => intro acc; simp
  | cons x l ih =>
    intro acc
    have h1 := ih (linInsert cmp x acc)
    have h2 : List.Perm (linInsert cmp x acc ++ l) ((x :: acc) ++ l) :=
      (linInsert_perm cmp x acc).append_right l
    have h3 : List.Perm ((x :: acc) ++ l) (acc ++ x :: l) := by
      have := (@List.perm_middle _ x acc l).symm
      simpa using this
    exact ((h1.trans h2).trans h3)

theorem linSort_perm (cmp : α → α → Int) (l : List α) :
    List.Perm (linSort cmp l) l := by
  have := foldl_linInsert_perm cmp l []
  simpa [linSort] using this

theorem mem_linSort (cmp : α → α → Int) (l : List α) (z : α) :
    z ∈ linSort cmp l ↔ z ∈ l :=
  (linSort_perm cmp l).mem_iff

theorem foldl_linInsert_sorted (kf : α → β) :
    ∀ (l acc : List α), List.Pairwise (keyLE kf) acc →
      List.Pairwise (keyLE kf)
        (l.foldl (fun a x => linInsert (kcmp kf) x a) acc) := by
  intro l
  induction l with
  | nil => intro acc h; exact h
  | cons x l ih =>
    intro acc h
    exact ih (linInsert (kcmp kf) x acc) (linInsert_sorted kf x acc h)

theorem linSort_sorted (kf : α → β) (l : List α) :
    List.Pairwise (keyLE kf) (linSort (kcmp kf) l) :=
  foldl_linInsert_sorted kf l [] List.Pairwise.nil

theorem foldl_linInsert_filter (kf : α → β) (p : α → Bool)
    (hp : ∀ a b, p a = true → p b = true → kf a = kf b) :
    ∀ (l acc : List α), List.Pairwise (keyLE kf) acc →
      (l.foldl (fun a x => linInsert (kcmp kf) x a) acc).filter p =
        acc.filter p ++ l.filter p := by
  intro l
  induction l with
  | nil => intro acc _; simp
  | cons x l ih =>
    intro acc hacc
    have hstep := ih (linInsert (kcmp kf) x acc)
      (linInsert_sorted kf x acc hacc)
    rw [List.foldl_cons, hstep]
    by_cases hpx : p x = true
    · rw [linInsert_filter_of_pos kf p x acc hpx hp hacc,
        List.filter_cons_of_pos hpx]
      simp
    · have hpx2 : p x = false := by
        cases hv : p x
        · rfl
        · exact absurd hv hpx
      rw [linInsert_filter_of_neg (kcmp kf) p x acc hpx2,
        List.filter_cons_of_neg (by rw [hpx2]; exact Bool.false_ne_true)]

theorem linSort_filter (kf : α → β) (p : α → Bool)
    (hp : ∀ a b, p a = true → p b = true → kf a = kf b) (l : List α) :
    (linSort (kcmp kf) l).filter p = l.filter p := by
  have := foldl_linInsert_filter kf p hp l [] List.Pairwise.nil
  simpa [linSort] using this

theorem linInsert_append_of_all (kf : α → β) (x : α) :
    ∀ acc : List α, (∀ y ∈ acc, kf y ≤ kf x) →
      linInsert (kcmp kf) x acc = acc ++ [x] := by
  intro acc
  induction acc with
  | nil => intro _; rfl
  | cons y ys ih =>
    intro h
    unfold linInsert
    have hy : kf y ≤ kf x := h y (List.mem_cons_self y ys)
    rw [if_neg (fun hc => absurd ((kcmp_neg_iff kf x y).mp hc)
      (not_lt.mpr hy))]
    rw [ih (fun z hz => h z (List.mem_cons_of_mem y hz))]
    rfl

theorem foldl_id_of_sorted (kf : α → β) :
    ∀ (m acc : List α), List.Pairwise (keyLE kf) (acc ++ m) →
      m.foldl (fun a x => linInsert (kcmp kf) x a) acc = acc ++ m := by
  intro m
  induction m with
  | nil => intro acc _; simp
  | cons x m2 ih =>
    intro acc h
    have hax : ∀ y ∈ acc, kf y ≤ kf x := by
      intro y hy
      exact (List.pairwise_append.mp h).2.2 y hy x (List.mem_cons_self x m2)
    rw [List.foldl_cons, linInsert_append_of_all kf x acc hax]
    have hre : (acc ++ [x]) ++ m2 = acc ++ x :: m2 := by simp
    rw [ih (acc ++ [x]) (by rw [hre]; exact h), hre]

theorem linSort_of_sorted (kf : α → β) (m : List α)
    (h : List.Pairwise (keyLE kf) m) : linSort (kcmp kf) m = m := by
  have := foldl_id_of_sorted kf m [] (by simpa using h)
  simpa [linSort] using this

theorem linInsert_cons_of_forall_lt (kf : α → β) (x : α) (acc : List α)
    (h : ∀ b ∈ acc, kf x < kf b) : linInsert (kcmp kf) x acc = x :: acc := by
  cases acc with
  | nil => rfl
  | cons y ys =>
    unfold linInsert
    rw [if_pos ((kcmp_neg_iff kf x y).mpr (h y (List.mem_cons_self y ys)))]

theorem foldl_rev_of_strictdesc (kf : α → β) :
    ∀ (r acc : List α), List.Pairwise (fun a b => kf b < kf a) r →
      (∀ a ∈ r, ∀ b ∈ acc, kf a < kf b) →
      r.foldl (fun a x => linInsert (kcmp kf) x a) acc = r.reverse ++ acc := by
  intro r
  induction r with
  | nil => intro acc _ _; simp
  | cons x r2 ih =>
    intro acc hp hcross
    rcases List.pairwise_cons.mp hp with ⟨hx, hr2⟩
    rw [List.foldl_cons, linInsert_cons_of_forall_lt kf x acc
      (fun b hb => hcross x (List.mem_cons_self x r2) b hb)]
    rw [ih (x :: acc) hr2 ?_]
    · simp
    · intro a ha b hb
      rcases List.mem_cons.mp hb with hbx | hbacc
      · rw [hbx]; exact hx a ha
      · exact hcross a (List.mem_cons_of_mem x ha) b hbacc

theorem linSort_of_strictdesc (kf : α → β) (r : List α)
    (h : List.Pairwise (fun a b => kf b < kf a) r) :
    linSort (kcmp kf) r = r.reverse := by
  have := foldl_rev_of_strictdesc kf r [] h (fun a _ b hb => absurd hb
    (List.not_mem_nil b))
  simpa [linSort] using this

end KeySort2

section KeySort3

variable {α : Type} {β : Type} [LinearOrder β]

theorem getD_mem : ∀ (l : List α) (i : Nat) (d : α), i < l.length →
    l.getD i d ∈ l := by
  intro l
  induction l with
  | nil => intro i d h; exact absurd h (by simp)
  | cons y ys ih =>
    intro i d h
    cases i with
    | zero => exact List.mem_cons_self y ys
    | succ j =>
      exact List.mem_cons_of_mem y (ih j d (by simpa using h))

/-- The stable insertion point: all entries before it are not greater
than the pivot, all entries from it on are strictly greater, and linear
insertion places the pivot exactly there. -/
theorem exists_insert_pos (kf : α → β) (x : α) :
    ∀ acc : List α, List.Pairwise (keyLE kf) acc →
      ∃ P, P ≤ acc.length ∧
        (∀ i, i < P → ¬ kf x < kf (acc.getD i x)) ∧
        (∀ i, P ≤ i → i < acc.length → kf x < kf (acc.getD i x)) ∧
        linInsert (kcmp kf) x acc = acc.take P ++ x :: acc.drop P := by
  intro acc
  induction acc with
  | nil =>
    intro _
    exact ⟨0, Nat.le_refl 0, fun i hi => absurd hi (Nat.not_lt_zero i),
      fun i _ hi => absurd hi (by simp), rfl⟩
  | cons y ys ih =>
    intro hs
    rcases List.pairwise_cons.mp hs with ⟨hy, hys⟩
    by_cases hxy : kf x < kf y
    · refine ⟨0, Nat.zero_le _, fun i hi => absurd hi (Nat.not_lt_zero i),
        ?_, ?_⟩
      · intro i _ hilen
        cases i with
        | zero => exact hxy
        | succ j =>
          have hj : j < ys.length := by simpa using hilen
          have hmem : ys.getD j x ∈ ys := getD_mem ys j x hj
          exact lt_of_lt_of_le hxy (hy _ hmem)
      · unfold linInsert
        rw [if_pos ((kcmp_neg_iff kf x y).mpr hxy)]
        rfl
    · obtain ⟨P2, hlen, h1, h2, heq⟩ := ih hys
      refine ⟨P2 + 1, by simpa using hlen, ?_, ?_, ?_⟩
      · intro i hi
        cases i with
        | zero => exact hxy
        | succ j => exact h1 j (by omega)
      · intro i hiP hilen
        cases i with
        | zero => omega
        | succ j => exact h2 j (by omega) (by simpa using hilen)
      · unfold linInsert
        rw [if_neg (fun hc => hxy ((kcmp_neg_iff kf x y).mp hc)), heq]
        rfl

theorem bsPosAux_eq (kf : α → β) (x : α) (acc : List α) (P : Nat)
    (h1 : ∀ i, i < P → ¬ kf x < kf (acc.getD i x))
    (h2 : ∀ i, P ≤ i → i < acc.length → kf x < kf (acc.getD i x)) :
    ∀ (fuel lo hi : Nat), hi ≤ acc.length → hi - lo ≤ fuel → lo ≤ P →
      P ≤ hi → bsPosAux (kcmp kf) x acc fuel lo hi = P := by
  intro fuel
  induction fuel with
  | zero =>
    intro lo hi _ hfuel hloP hPhi
    have : lo = P := by omega
    simpa [bsPosAux] using this
  | succ fuel ih =>
    intro lo hi hlen hfuel hloP hPhi
    by_cases hlt : lo < hi
    · by_cases hc : kcmp kf x (acc.getD ((lo + hi) / 2) x) < 0
      · have hstep : bsPosAux (kcmp kf) x acc (fuel + 1) lo hi =
            bsPosAux (kcmp kf) x acc fuel lo ((lo + hi) / 2) := by
          simp only [bsPosAux, if_pos hlt, if_pos hc]
        rw [hstep]
        have hPmid : P ≤ (lo + hi) / 2 := by
          by_contra hcon
          exact h1 ((lo + hi) / 2) (by omega)
            ((kcmp_neg_iff kf x _).mp hc)
        exact ih lo ((lo + hi) / 2) (by omega) (by omega) hloP hPmid
      · have hstep : bsPosAux (kcmp kf) x acc (fuel + 1) lo hi =
            bsPosAux (kcmp kf) x acc fuel ((lo + hi) / 2 + 1) hi := by
          simp only [bsPosAux, if_pos hlt, if_neg hc]
        rw [hstep]
        have hPmid : (lo + hi) / 2 + 1 ≤ P := by
          by_contra hcon
          exact hc ((kcmp_neg_iff kf x _).mpr
            (h2 ((lo + hi) / 2) (by omega) (by omega)))
        exact ih ((lo + hi) / 2 + 1) hi hlen (by omega) hPmid hPhi
    · have : lo = P := by omega
      simpa [bsPosAux, if_neg hlt] using this

theorem binInsert_eq_linInsert (kf : α → β) (x : α) (acc : List α)
    (hs : List.Pairwise (keyLE kf) acc) :
    binInsert (kcmp kf) x acc = linInsert (kcmp kf) x acc := by
  obtain ⟨P, hlen, h1, h2, heq⟩ := exists_insert_pos kf x acc hs
  have hpos : bsPos (kcmp kf) x acc 0 acc.length = P :=
    bsPosAux_eq kf x acc P h1 h2 (acc.length - 0) 0 acc.length
      (Nat.le_refl _) (Nat.le_refl _) (Nat.zero_le _) hlen
  unfold binInsert
  rw [hpos, heq]

theorem foldl_binInsert_eq (kf : α → β) :
    ∀ (rest acc : List α), List.Pairwise (keyLE kf) acc →
      rest.foldl (fun a x => binInsert (kcmp kf) x a) acc =
        rest.foldl (fun a x => linInsert (kcmp kf) x a) acc := by
  intro rest
  induction rest with
  | nil => intro acc _; rfl
  | cons x rest ih =>
    intro acc hacc
    rw [List.foldl_cons, List.foldl_cons,
      binInsert_eq_linInsert kf x acc hacc]
    exact ih (linInsert (kcmp kf) x acc) (linInsert_sorted kf x acc hacc)

end KeySort3

section KeySort4

variable {α : Type} {β : Type} [LinearOrder β]

theorem ascTake_append (cmp : α → α → Int) :
    ∀ (ys : List α) (prev : α),
      (ascTake cmp prev ys).1 ++ (ascTake cmp prev ys).2 = ys := by
  intro ys
  induction ys with
  | nil => intro prev; rfl
  | cons y ys ih =>
    intro prev
    unfold ascTake
    by_cases h : cmp y prev < 0
    · rw [if_pos h]
      rfl
    · rw [if_neg h]
      simpa using ih y

theorem descTake_append (cmp : α → α → Int) :
    ∀ (ys : List α) (prev : α),
      (descTake cmp prev ys).1 ++ (descTake cmp prev ys).2 = ys := by
  intro ys
  induction ys with
  | nil => intro prev; rfl
  | cons y ys ih =>
    intro prev
    unfold descTake
    by_cases h : cmp y prev < 0
    · rw [if_pos h]
      simpa using ih y
    · rw [if_neg h]
      rfl

theorem ascTake_chain (kf : α → β) :
    ∀ (ys : List α) (prev : α),
      List.Chain (keyLE kf) prev (ascTake (kcmp kf) prev ys).1 := by
  intro ys
  induction ys with
  | nil => intro prev; exact List.Chain.nil
  | cons y ys ih =>
    intro prev
    unfold ascTake
    by_cases h : kcmp kf y prev < 0
    · rw [if_pos h]
      exact List.Chain.nil
    · rw [if_neg h]
      exact List.Chain.cons (kcmp_not_neg kf h) (ih y)

theorem descTake_chain (kf : α → β) :
    ∀ (ys : List α) (prev : α),
      List.Chain (fun a b => kf b < kf a) prev
        (descTake (kcmp kf) prev ys).1 := by
  intro ys
  induction ys with
  | nil => intro prev; exact List.Chain.nil
  | cons y ys ih =>
    intro prev
    unfold descTake
    by_cases h : kcmp kf y prev < 0
    · rw [if_pos h]
      exact List.Chain.cons ((kcmp_neg_iff kf y prev).mp h) (ih y)
    · rw [if_neg h]
      exact List.Chain.nil

theorem chain_pairwise {R : α → α → Prop}
    (htrans : ∀ a b c, R a b → R b c → R a c) :
    ∀ (l : List α) (a : α), List.Chain R a l → List.Pairwise R (a :: l) := by
  intro l
  induction l with
  | nil => intro a _; exact List.pairwise_singleton R a
  | cons b l ih =>
    intro a hch
    rcases List.chain_cons.mp hch with ⟨hab, hch2⟩
    have hp := ih b hch2
    refine List.pairwise_cons.mpr ⟨?_, hp⟩
    intro z hz
    rcases List.mem_cons.mp hz with hzb | hzl
    · rw [hzb]; exact hab
    · exact htrans a b z hab ((List.pairwise_cons.mp hp).1 z hzl)

theorem v8sort_eq_linSort (kf : α → β) (l : List α) :
    v8sort (kcmp kf) l = linSort (kcmp kf) l := by
  match l with
  | [] => rfl
  | [x] => rfl
  | x :: y :: rest =>
    by_cases hd : kcmp kf y x < 0
    · have hmr : makeRun (kcmp kf) (x :: y :: rest) =
          ((x :: y :: (descTake (kcmp kf) y rest).1).reverse,
            (descTake (kcmp kf) y rest).2) := by
        simp only [makeRun, if_pos hd]
      have hsplit := descTake_append (kcmp kf) rest y
      have hpair : List.Pairwise (fun a b => kf b < kf a)
          (x :: y :: (descTake (kcmp kf) y rest).1) := by
        refine @chain_pairwise α (fun a b => kf b < kf a)
          (fun a b c hab hbc => lt_trans hbc hab) _ x ?_
        exact List.chain_cons.mpr ⟨(kcmp_neg_iff kf y x).mp hd,
          descTake_chain kf rest y⟩
      have hrevsorted : List.Pairwise (keyLE kf)
          (x :: y :: (descTake (kcmp kf) y rest).1).reverse := by
        rw [List.pairwise_reverse]
        refine hpair.imp ?_
        intro a b h
        exact le_of_lt h
      unfold v8sort
      rw [hmr]
      rw [foldl_binInsert_eq kf _ _ hrevsorted]
      have hlin : linSort (kcmp kf)
          (x :: y :: (descTake (kcmp kf) y rest).1) =
          (x :: y :: (descTake (kcmp kf) y rest).1).reverse :=
        linSort_of_strictdesc kf _ hpair
      have hl : x :: y :: rest =
          (x :: y :: (descTake (kcmp kf) y rest).1) ++
            (descTake (kcmp kf) y rest).2 := by
        simp [hsplit]
      conv_rhs => rw [hl]
      unfold linSort
      rw [List.foldl_append]
      congr 1
      exact hlin.symm
    · have hmr : makeRun (kcmp kf) (x :: y :: rest) =
          (x :: y :: (ascTake (kcmp kf) y rest).1,
            (ascTake (kcmp kf) y rest).2) := by
        simp only [makeRun, if_neg hd]
      have hsplit := ascTake_append (kcmp kf) rest y
      have hpair : List.Pairwise (keyLE kf)
          (x :: y :: (ascTake (kcmp kf) y rest).1) := by
        refine @chain_pairwise α (keyLE kf)
          (fun a b c hab hbc => le_trans hab hbc) _ x ?_
        exact List.chain_cons.mpr ⟨kcmp_not_neg kf hd, ascTake_chain kf rest y⟩
      unfold v8sort
      rw [hmr]
      rw [foldl_binInsert_eq kf _ _ hpair]
      have hl : x :: y :: rest =
          (x :: y :: (ascTake (kcmp kf) y rest).1) ++
            (ascTake (kcmp kf) y rest).2 := by
        simp [hsplit]
      conv_rhs => rw [hl]
      unfold linSort
      rw [List.foldl_append]
      congr 1
      exact (linSort_of_sorted kf _ hpair).symm

end KeySort4

section KeySort5

variable {α : Type} {β : Type} [LinearOrder β]

/-- Two sorted lists that are permutations of each other and agree on
every key class (as subsequences) are equal: the output of a stable sort is
unique. -/
theorem stable_sorted_unique (kf : α → β) :
    ∀ (X Y : List α), List.Perm X Y → List.Pairwise (keyLE kf) X →
      List.Pairwise (keyLE kf) Y →
      (∀ k : β, X.filter (fun z => decide (kf z = k)) =
        Y.filter (fun z => decide (kf z = k))) →
      X = Y := by
  intro X
  induction X with
  | nil =>
    intro Y hperm _ _ _
    exact hperm.nil_eq
  | cons x X2 ih =>
    intro Y hperm hX hY hfilt
    cases Y with
    | nil => exact List.noConfusion hperm.symm.nil_eq
    | cons y Y2 =>
      have hxY : x ∈ y :: Y2 :=
        hperm.mem_iff.mp (List.mem_cons_self x X2)
      have hyX : y ∈ x :: X2 :=
        hperm.mem_iff.mpr (List.mem_cons_self y Y2)
      have hkxy : kf x = kf y := by
        have h1 : kf x ≤ kf y := by
          rcases List.mem_cons.mp hyX with h | h
          · rw [h]
          · exact (List.pairwise_cons.mp hX).1 y h
        have h2 : kf y ≤ kf x := by
          rcases List.mem_cons.mp hxY with h | h
          · rw [h]
          · exact (List.pairwise_cons.mp hY).1 x h
        exact le_antisymm h1 h2
      have hfx := hfilt (kf x)
      have hd1 : (decide (kf x = kf x)) = true := by simp
      have hd2 : (decide (kf y = kf x)) = true := by simp [hkxy]
      rw [List.filter_cons, List.filter_cons, hd1, hd2] at hfx
      simp only [if_true] at hfx
      have hxy : x = y := ((List.cons.injEq _ _ _ _).mp hfx).1
      subst hxy
      have htails : X2 = Y2 := by
        refine ih Y2 hperm.cons_inv hX.of_cons hY.of_cons ?_
        intro k
        have h2 := hfilt k
        rw [List.filter_cons, List.filter_cons] at h2
        by_cases hk : (decide (kf x = k)) = true
        · rw [hk] at h2
          simp only [if_true] at h2
          exact ((List.cons.injEq _ _ _ _).mp h2).2
        · have hk2 : (decide (kf x = k)) = false := by
            cases hv : decide (kf x = k)
            · rfl
            · exact absurd hv hk
          rw [hk2] at h2
          simpa using h2
      rw [htails]

/-- Sorting ascending, then descending (the dual order), then ascending
again returns the first ascending result: the stable round trip. -/
theorem linSort_roundtrip (kf : α → β) (l : List α) :
    linSort (kcmp kf)
      (linSort (kcmp (fun a => OrderDual.toDual (kf a)))
        (linSort (kcmp kf) l)) = linSort (kcmp kf) l := by
  have hGA : List.Perm
      (linSort (kcmp kf)
        (linSort (kcmp (fun a => OrderDual.toDual (kf a)))
          (linSort (kcmp kf) l)))
      (linSort (kcmp kf) l) :=
    (linSort_perm _ _).trans (linSort_perm _ _)
  refine stable_sorted_unique kf _ _ hGA (linSort_sorted kf _)
    (linSort_sorted kf _) ?_
  intro k
  have hstep1 : (linSort (kcmp kf)
      (linSort (kcmp (fun a => OrderDual.toDual (kf a)))
        (linSort (kcmp kf) l))).filter (fun z => decide (kf z = k)) =
      (linSort (kcmp (fun a => OrderDual.toDual (kf a)))
        (linSort (kcmp kf) l)).filter (fun z => decide (kf z = k)) :=
    linSort_filter kf _ (fun a b ha hb =>
      (of_decide_eq_true ha).trans (of_decide_eq_true hb).symm) _
  have hstep2 : (linSort (kcmp (fun a => OrderDual.toDual (kf a)))
        (linSort (kcmp kf) l)).filter (fun z => decide (kf z = k)) =
      (linSort (kcmp kf) l).filter (fun z => decide (kf z = k)) :=
    linSort_filter (fun a => OrderDual.toDual (kf a)) _
      (fun a b ha hb => congrArg OrderDual.toDual
        ((of_decide_eq_true ha).trans (of_decide_eq_true hb).symm)) _
  rw [hstep1, hstep2]

end KeySort5

/-! ## Bridging the JavaScript comparator to the key order -/

theorem charListLt_iff : ∀ cs ds : List Char,
    charListLt cs ds = true ↔ List.Lex (· < ·) cs ds := by
  intro cs
  induction cs with
  | nil =>
    intro ds
    cases ds with
    | nil =>
      exact iff_of_false (by simp [charListLt]) (List.Lex.not_nil_right _ _)
    | cons d ds => exact iff_of_true rfl List.Lex.nil
  | cons c cs ih =>
    intro ds
    cases ds with
    | nil =>
      exact iff_of_false (by simp [charListLt]) (List.Lex.not_nil_right _ _)
    | cons d ds =>
      unfold charListLt
      by_cases h1 : c < d
      · rw [if_pos h1]
        exact iff_of_true rfl (List.Lex.rel h1)
      · rw [if_neg h1]
        by_cases h2 : d < c
        · rw [if_pos h2]
          refine iff_of_false (by simp) ?_
          intro hlex
          cases hlex with
          | rel h => exact h1 h
          | cons h => exact lt_irrefl _ h2
        · rw [if_neg h2]
          have hcd : c = d := le_antisymm (le_of_not_lt h2) (le_of_not_lt h1)
          subst hcd
          exact (ih ds).trans List.Lex.cons_iff.symm

theorem strLt_iff (s t : String) : strLt s t = true ↔ s < t := by
  rw [String.lt_iff_toList_lt]
  exact charListLt_iff s.data t.data

theorem isStr_exists {v : JVal} (h : v.isStr = true) : ∃ s, v = vStr s := by
  cases v <;> simp_all [JVal.isStr]

theorem strLt_false_iff (s t : String) : strLt s t = false ↔ ¬s < t := by
  constructor
  · intro h hc
    rw [(strLt_iff s t).mpr hc] at h
    exact Bool.noConfusion h
  · intro h
    cases hv : strLt s t
    · rfl
    · exact absurd ((strLt_iff s t).mp hv) h

theorem userCmp_asc_eq_kcmp (col : String) (a b : JVal)
    (ha : (sortKey col a).isStr = true) (hb : (sortKey col b).isStr = true) :
    userCmp col SortDir.ascending a b = kcmp (skey col) a b := by
  obtain ⟨sa, hka⟩ := isStr_exists ha
  obtain ⟨sb, hkb⟩ := isStr_exists hb
  have hsa : skey col a = sa := by unfold skey; rw [hka]
  have hsb : skey col b = sb := by unfold skey; rw [hkb]
  have hja : jsLt (vStr sa) (vStr sb) = strLt sa sb := rfl
  have hjb : jsLt (vStr sb) (vStr sa) = strLt sb sa := rfl
  unfold userCmp cmpOutcome jsGt kcmp
  rw [hka, hkb, hsa, hsb, hja, hjb]
  rcases lt_trichotomy sa sb with h | h | h
  · rw [(strLt_iff sa sb).mpr h]
    rw [if_pos rfl, if_pos h]
  · subst h
    have hf : strLt sa sa = false := (strLt_false_iff sa sa).mpr (lt_irrefl sa)
    rw [hf]
    simp
  · have hf : strLt sa sb = false := (strLt_false_iff sa sb).mpr (lt_asymm h)
    rw [hf, (strLt_iff sb sa).mpr h]
    have : ¬sa < sb := lt_asymm h
    simp [this, h]

theorem userCmp_desc_eq_kcmp (col : String) (a b : JVal)
    (ha : (sortKey col a).isStr = true) (hb : (sortKey col b).isStr = true) :
    userCmp col SortDir.descending a b =
      kcmp (fun u => OrderDual.toDual (skey col u)) a b := by
  obtain ⟨sa, hka⟩ := isStr_exists ha
  obtain ⟨sb, hkb⟩ := isStr_exists hb
  have hsa : skey col a = sa := by unfold skey; rw [hka]
  have hsb : skey col b = sb := by unfold skey; rw [hkb]
  have hja : jsLt (vStr sa) (vStr sb) = strLt sa sb := rfl
  have hjb : jsLt (vStr sb) (vStr sa) = strLt sb sa := rfl
  unfold userCmp cmpOutcome jsGt kcmp
  simp only [hka, hkb, hsa, hsb, hja, hjb]
  rcases lt_trichotomy sa sb with h | h | h
  · rw [(strLt_iff sa sb).mpr h]
    have hd1 : ¬(OrderDual.toDual sa < OrderDual.toDual sb) := by
      simpa using lt_asymm h
    have hd2 : OrderDual.toDual sb < OrderDual.toDual sa := by simpa using h
    rw [if_pos rfl, if_neg hd1, if_pos hd2]
  · subst h
    have hf : strLt sa sa = false := (strLt_false_iff sa sa).mpr (lt_irrefl sa)
    rw [hf]
    simp
  · have hf : strLt sa sb = false := (strLt_false_iff sa sb).mpr (lt_asymm h)
    rw [hf, (strLt_iff sb sa).mpr h]
    have hd1 : OrderDual.toDual sa < OrderDual.toDual sb := by simpa using h
    rw [if_pos hd1]
    simp

section SortCongr

variable {α : Type}

theorem getD_default : ∀ (l : List α) (i : Nat) (d : α), l.length ≤ i →
    l.getD i d = d := by
  intro l
  induction l with
  | nil => intro i d _; cases i <;> rfl
  | cons y ys ih =>
    intro i d h
    cases i with
    | zero => exact absurd h (by simp)
    | succ j => exact ih j d (by simpa using h)

theorem ascTake_congr (cmp1 cmp2 : α → α → Int) (S : List α)
    (h : ∀ a b, a ∈ S → b ∈ S → cmp1 a b = cmp2 a b) :
    ∀ (ys : List α) (prev : α), prev ∈ S → (∀ y ∈ ys, y ∈ S) →
      ascTake cmp1 prev ys = ascTake cmp2 prev ys := by
  intro ys
  induction ys with
  | nil => intro prev _ _; rfl
  | cons y ys ih =>
    intro prev hprev hys
    have hy : y ∈ S := hys y (List.mem_cons_self y ys)
    have hc : cmp1 y prev = cmp2 y prev := h y prev hy hprev
    unfold ascTake
    rw [hc, ih y hy (fun z hz => hys z (List.mem_cons_of_mem y hz))]

theorem descTake_congr (cmp1 cmp2 : α → α → Int) (S : List α)
    (h : ∀ a b, a ∈ S → b ∈ S → cmp1 a b = cmp2 a b) :
    ∀ (ys : List α) (prev : α), prev ∈ S → (∀ y ∈ ys, y ∈ S) →
      descTake cmp1 prev ys = descTake cmp2 prev ys := by
  intro ys
  induction ys with
  | nil => intro prev _ _; rfl
  | cons y ys ih =>
    intro prev hprev hys
    have hy : y ∈ S := hys y (List.mem_cons_self y ys)
    have hc : cmp1 y prev = cmp2 y prev := h y prev hy hprev
    unfold descTake
    rw [hc, ih y hy (fun z hz => hys z (List.mem_cons_of_mem y hz))]

theorem makeRun_congr (cmp1 cmp2 : α → α → Int) (S : List α)
    (h : ∀ a b, a ∈ S → b ∈ S → cmp1 a b = cmp2 a b) :
    ∀ l : List α, (∀ z ∈ l, z ∈ S) → makeRun cmp1 l = makeRun cmp2 l := by
  intro l hl
  match l with
  | [] => rfl
  | [x] => rfl
  | x :: y :: rest =>
    have hx : x ∈ S := hl x (by simp)
    have hy : y ∈ S := hl y (by simp)
    have hrest : ∀ z ∈ rest, z ∈ S := fun z hz => hl z (by simp [hz])
    have hc : cmp1 y x = cmp2 y x := h y x hy hx
    have e1 : makeRun cmp1 (x :: y :: rest) =
        if cmp1 y x < 0 then
          ((x :: y :: (descTake cmp1 y rest).1).reverse,
            (descTake cmp1 y rest).2)
        else (x :: y :: (ascTake cmp1 y rest).1, (ascTake cmp1 y rest).2) :=
      rfl
    have e2 : makeRun cmp2 (x :: y :: rest) =
        if cmp2 y x < 0 then
          ((x :: y :: (descTake cmp2 y rest).1).reverse,
            (descTake cmp2 y rest).2)
        else (x :: y :: (ascTake cmp2 y rest).1, (ascTake cmp2 y rest).2) :=
      rfl
    rw [e1, e2, hc, descTake_congr cmp1 cmp2 S h rest y hy hrest,
      ascTake_congr cmp1 cmp2 S h rest y hy hrest]

theorem bsPosAux_congr (cmp1 cmp2 : α → α → Int) (S : List α)
    (h : ∀ a b, a ∈ S → b ∈ S → cmp1 a b = cmp2 a b) (x : α) (hx : x ∈ S)
    (acc : List α) (hacc : ∀ z ∈ acc, z ∈ S) :
    ∀ (fuel lo hi : Nat),
      bsPosAux cmp1 x acc fuel lo hi = bsPosAux cmp2 x acc fuel lo hi := by
  intro fuel
  induction fuel with
  | zero => intro lo hi; rfl
  | succ fuel ih =>
    intro lo hi
    have hmid : x ∈ S ∧ acc.getD ((lo + hi) / 2) x ∈ S := by
      refine ⟨hx, ?_⟩
      rcases Nat.lt_or_ge ((lo + hi) / 2) acc.length with hm | hm
      · exact hacc _ (getD_mem acc _ x hm)
      · rw [getD_default acc _ x hm]
        exact hx
    have hc : cmp1 x (acc.getD ((lo + hi) / 2) x) =
        cmp2 x (acc.getD ((lo + hi) / 2) x) := h _ _ hmid.1 hmid.2
    unfold bsPosAux
    rw [hc, ih, ih]

theorem binInsert_congr (cmp1 cmp2 : α → α → Int) (S : List α)
    (h : ∀ a b, a ∈ S → b ∈ S → cmp1 a b = cmp2 a b) (x : α) (hx : x ∈ S)
    (acc : List α) (hacc : ∀ z ∈ acc, z ∈ S) :
    binInsert cmp1 x acc = binInsert cmp2 x acc := by
  unfold binInsert bsPos
  rw [bsPosAux_congr cmp1 cmp2 S h x hx acc hacc]

theorem binInsert_perm (cmp : α → α → Int) (x : α) (acc : List α) :
    List.Perm (binInsert cmp x acc) (x :: acc) := by
  unfold binInsert
  have := @List.perm_middle _ x (acc.take (bsPos cmp x acc 0 acc.length))
    (acc.drop (bsPos cmp x acc 0 acc.length))
  rw [List.take_append_drop] at this
  exact this

theorem mem_binInsert (cmp : α → α → Int) (x z : α) (acc : List α) :
    z ∈ binInsert cmp x acc ↔ z = x ∨ z ∈ acc := by
  rw [(binInsert_perm cmp x acc).mem_iff, List.mem_cons]

theorem foldl_binInsert_congr (cmp1 cmp2 : α → α → Int) (S : List α)
    (h : ∀ a b, a ∈ S → b ∈ S → cmp1 a b = cmp2 a b) :
    ∀ (rest acc : List α), (∀ z ∈ acc, z ∈ S) → (∀ z ∈ rest, z ∈ S) →
      rest.foldl (fun a x => binInsert cmp1 x a) acc =
        rest.foldl (fun a x => binInsert cmp2 x a) acc := by
  intro rest
  induction rest with
  | nil => intro acc _ _; rfl
  | cons x rest ih =>
    intro acc hacc hrest
    have hx : x ∈ S := hrest x (List.mem_cons_self x rest)
    rw [List.foldl_cons, List.foldl_cons,
      binInsert_congr cmp1 cmp2 S h x hx acc hacc]
    refine ih (binInsert cmp2 x acc) ?_
      (fun z hz => hrest z (List.mem_cons_of_mem x hz))
    intro z hz
    rcases (mem_binInsert cmp2 x z acc).mp hz with hzx | hzacc
    · rw [hzx]; exact hx
    · exact hacc z hzacc

theorem foldl_binInsert_perm (cmp : α → α → Int) :
    ∀ (l acc : List α),
      List.Perm (l.foldl (fun a x => binInsert cmp x a) acc) (acc ++ l) := by
  intro l
  induction l with
  | nil => intro acc; simp
  | cons x l ih =>
    intro acc
    have h1 := ih (binInsert cmp x acc)
    have h2 : List.Perm (binInsert cmp x acc ++ l) ((x :: acc) ++ l) :=
      (binInsert_perm cmp x acc).append_right l
    have h3 : List.Perm ((x :: acc) ++ l) (acc ++ x :: l) := by
      have := (@List.perm_middle _ x acc l).symm
      simpa using this
    exact (h1.trans h2).trans h3

theorem mem_of_makeRun_fst (cmp : α → α → Int) (l : List α) :
    ∀ z ∈ (makeRun cmp l).1, z ∈ l := by
  match l with
  | [] => intro z hz; exact absurd hz (List.not_mem_nil z)
  | [x] => intro z hz; simpa [makeRun] using hz
  | x :: y :: rest =>
    intro z hz
    have e1 : makeRun cmp (x :: y :: rest) =
        if cmp y x < 0 then
          ((x :: y :: (descTake cmp y rest).1).reverse,
            (descTake cmp y rest).2)
        else (x :: y :: (ascTake cmp y rest).1, (ascTake cmp y rest).2) :=
      rfl
    rw [e1] at hz
    by_cases hd : cmp y x < 0
    · rw [if_pos hd] at hz
      simp only [List.mem_reverse] at hz
      rcases List.mem_cons.mp hz with h | h
      · simp [h]
      · rcases List.mem_cons.mp h with h2 | h2
        · simp [h2]
        · have : z ∈ rest := by
            have happ := descTake_append cmp rest y
            rw [← happ]
            exact List.mem_append_left _ h2
          simp [this]
    · rw [if_neg hd] at hz
      rcases List.mem_cons.mp hz with h | h
      · simp [h]
      · rcases List.mem_cons.mp h with h2 | h2
        · simp [h2]
        · have : z ∈ rest := by
            have happ := ascTake_append cmp rest y
            rw [← happ]
            exact List.mem_append_left _ h2
          simp [this]

theorem mem_of_makeRun_snd (cmp : α → α → Int) (l : List α) :
    ∀ z ∈ (makeRun cmp l).2, z ∈ l := by
  match l with
  | [] => intro z hz; exact absurd hz (List.not_mem_nil z)
  | [x] => intro z hz; simp [makeRun] at hz
  | x :: y :: rest =>
    intro z hz
    have e1 : makeRun cmp (x :: y :: rest) =
        if cmp y x < 0 then
          ((x :: y :: (descTake cmp y rest).1).reverse,
            (descTake cmp y rest).2)
        else (x :: y :: (ascTake cmp y rest).1, (ascTake cmp y rest).2) :=
      rfl
    rw [e1] at hz
    by_cases hd : cmp y x < 0
    · rw [if_pos hd] at hz
      have : z ∈ rest := by
        have happ := descTake_append cmp rest y
        rw [← happ]
        exact List.mem_append_right _ hz
      simp [this]
    · rw [if_neg hd] at hz
      have : z ∈ rest := by
        have happ := ascTake_append cmp rest y
        rw [← happ]
        exact List.mem_append_right _ hz
      simp [this]

theorem v8sort_congr (cmp1 cmp2 : α → α → Int) (l : List α)
    (h : ∀ a b, a ∈ l → b ∈ l → cmp1 a b = cmp2 a b) :
    v8sort cmp1 l = v8sort cmp2 l := by
  unfold v8sort
  rw [makeRun_congr cmp1 cmp2 l h l (fun z hz => hz)]
  exact foldl_binInsert_congr cmp1 cmp2 l h (makeRun cmp2 l).2
    (makeRun cmp2 l).1 (mem_of_makeRun_fst cmp2 l) (mem_of_makeRun_snd cmp2 l)

theorem v8sort_perm (cmp : α → α → Int) (l : List α) :
    List.Perm (v8sort cmp l) l := by
  match l with
  | [] => rfl
  | [x] => rfl
  | x :: y :: rest =>
    unfold v8sort
    by_cases hd : cmp y x < 0
    · have hmr : makeRun cmp (x :: y :: rest) =
          ((x :: y :: (descTake cmp y rest).1).reverse,
            (descTake cmp y rest).2) := by
        simp only [makeRun, if_pos hd]
      rw [hmr]
      have h1 := foldl_binInsert_perm cmp (descTake cmp y rest).2
        (x :: y :: (descTake cmp y rest).1).reverse
      refine h1.trans ?_
      have h2 : List.Perm ((x :: y :: (descTake cmp y rest).1).reverse)
          (x :: y :: (descTake cmp y rest).1) := List.reverse_perm _
      refine (h2.append_right _).trans ?_
      have h3 : (x :: y :: (descTake cmp y rest).1) ++
          (descTake cmp y rest).2 = x :: y :: rest := by
        simp [descTake_append cmp rest y]
      rw [h3]
    · have hmr : makeRun cmp (x :: y :: rest) =
          (x :: y :: (ascTake cmp y rest).1, (ascTake cmp y rest).2) := by
        simp only [makeRun, if_neg hd]
      rw [hmr]
      have h1 := foldl_binInsert_perm cmp (ascTake cmp y rest).2
        (x :: y :: (ascTake cmp y rest).1)
      refine h1.trans ?_
      have h3 : (x :: y :: (ascTake cmp y rest).1) ++
          (ascTake cmp y rest).2 = x :: y :: rest := by
        simp [ascTake_append cmp rest y]
      rw [h3]

end SortCongr

/-! ## C2 / C8 — stability, direction, and the round trip -/

theorem pairwise_imp_mem {γ : Type} {R S : γ → γ → Prop} :
    ∀ l : List γ, (∀ a b, a ∈ l → b ∈ l → R a b → S a b) →
      l.Pairwise R → l.Pairwise S := by
  intro l
  induction l with
  | nil => intro _ _; exact List.Pairwise.nil
  | cons x l ih =>
    intro h hp
    rcases List.pairwise_cons.mp hp with ⟨hx, hl⟩
    refine List.pairwise_cons.mpr ⟨?_, ?_⟩
    · intro z hz
      exact h x z (List.mem_cons_self x l) (List.mem_cons_of_mem x hz)
        (hx z hz)
    · exact ih (fun a b ha hb => h a b (List.mem_cons_of_mem x ha)
        (List.mem_cons_of_mem x hb)) hl

/-- Descending always returns the negated outcome of ascending, pair by
pair (for arbitrary records, consistent keys or not). -/
theorem userCmp_desc_neg (col : String) (a b : JVal) :
    userCmp col SortDir.descending a b =
      -(userCmp col SortDir.ascending a b) := by
  unfold userCmp cmpOutcome
  by_cases h1 : jsLt (sortKey col a) (sortKey col b) = true
  · rw [if_pos h1, if_pos h1]
    decide
  · rw [if_neg h1, if_neg h1]
    by_cases h2 : jsGt (sortKey col a) (sortKey col b) = true
    · rw [if_pos h2, if_pos h2]
    · rw [if_neg h2, if_neg h2]
      decide

theorem v8sort_asc_eq (col : String) (l : List JVal)
    (hs : ∀ u ∈ l, (sortKey col u).isStr = true) :
    v8sort (userCmp col SortDir.ascending) l =
      linSort (kcmp (skey col)) l := by
  rw [v8sort_congr (userCmp col SortDir.ascending) (kcmp (skey col)) l
    (fun a b ha hb => userCmp_asc_eq_kcmp col a b (hs a ha) (hs b hb))]
  exact v8sort_eq_linSort (skey col) l

theorem v8sort_desc_eq (col : String) (l : List JVal)
    (hs : ∀ u ∈ l, (sortKey col u).isStr = true) :
    v8sort (userCmp col SortDir.descending) l =
      linSort (kcmp (fun u => OrderDual.toDual (skey col u))) l := by
  rw [v8sort_congr (userCmp col SortDir.descending)
    (kcmp (fun u => OrderDual.toDual (skey col u))) l
    (fun a b ha hb => userCmp_desc_eq_kcmp col a b (hs a ha) (hs b hb))]
  exact v8sort_eq_linSort (fun u => OrderDual.toDual (skey col u)) l

/-- C2 amended: provided every record resolves the sort column to a
string (the documented domain: `name`, `email`, `address.city`), the
sort is stable — the subsequence of any class of records with equal
resolved keys is unchanged, in both directions — ascending output is
pairwise non-decreasing, descending output is pairwise non-increasing,
and descending always negates the pairwise ascending outcome (the last
fact holds for arbitrary records). -/
theorem C2_sort_stability (col : String) (l : List JVal)
    (hs : ∀ u ∈ l, (sortKey col u).isStr = true) :
    (∀ (dir : SortDir) (p : JVal → Bool),
      (∀ a b, p a = true → p b = true → sortKey col a = sortKey col b) →
      (v8sort (userCmp col dir) l).filter p = l.filter p) ∧
    List.Pairwise (fun a b => userCmp col SortDir.ascending a b ≤ 0)
      (v8sort (userCmp col SortDir.ascending) l) ∧
    List.Pairwise (fun a b => userCmp col SortDir.descending a b ≤ 0)
      (v8sort (userCmp col SortDir.descending) l) ∧
    (∀ a b : JVal, userCmp col SortDir.descending a b =
      -(userCmp col SortDir.ascending a b)) := by
  refine ⟨?_, ?_, ?_, userCmp_desc_neg col⟩
  · intro dir p hp
    have hpk : ∀ a b, p a = true → p b = true → skey col a = skey col b := by
      intro a b ha hb
      unfold skey
      rw [hp a b ha hb]
    cases dir with
    | ascending =>
      rw [v8sort_asc_eq col l hs]
      exact linSort_filter (skey col) p hpk l
    | descending =>
      rw [v8sort_desc_eq col l hs]
      exact linSort_filter (fun u => OrderDual.toDual (skey col u)) p
        (fun a b ha hb => congrArg OrderDual.toDual (hpk a b ha hb)) l
  · rw [v8sort_asc_eq col l hs]
    refine pairwise_imp_mem (linSort (kcmp (skey col)) l) ?_
      (linSort_sorted (skey col) l)
    intro a b ha hb hr
    have ha2 := hs a ((mem_linSort (kcmp (skey col)) l a).mp ha)
    have hb2 := hs b ((mem_linSort (kcmp (skey col)) l b).mp hb)
    rw [userCmp_asc_eq_kcmp col a b ha2 hb2]
    exact (kcmp_nonpos_iff (skey col) a b).mpr hr
  · rw [v8sort_desc_eq col l hs]
    refine pairwise_imp_mem
      (linSort (kcmp (fun u => OrderDual.toDual (skey col u))) l) ?_
      (linSort_sorted (fun u => OrderDual.toDual (skey col u)) l)
    intro a b ha hb hr
    have ha2 := hs a ((mem_linSort _ l a).mp ha)
    have hb2 := hs b ((mem_linSort _ l b).mp hb)
    rw [userCmp_desc_eq_kcmp col a b ha2 hb2]
    exact (kcmp_nonpos_iff (fun u => OrderDual.toDual (skey col u)) a b).mpr hr

/-- C2 counterexample: in `stabCex` the record with the missing city
(id 3) and the record with city "a" (id 4) compare equal (comparator 0),
and id 3 precedes id 4 in the input; yet after sorting ascending by
`"city"` the order of this tied pair is reversed — stability fails once
a missing key makes the comparator inconsistent. -/
theorem C2_counterexample :
    userCmp "city" SortDir.ascending (vObj [("id", vNum 3)])
      (vObj [("id", vNum 4), ("city", vStr "a")]) = 0 ∧
    stabCex.filter (fun u => decide (u = vObj [("id", vNum 3)] ∨
      u = vObj [("id", vNum 4), ("city", vStr "a")])) =
      [vObj [("id", vNum 3)], vObj [("id", vNum 4), ("city", vStr "a")]] ∧
    (v8sort (userCmp "city" SortDir.ascending) stabCex).filter
      (fun u => decide (u = vObj [("id", vNum 3)] ∨
        u = vObj [("id", vNum 4), ("city", vStr "a")])) =
      [vObj [("id", vNum 4), ("city", vStr "a")], vObj [("id", vNum 3)]] :=
  ⟨rfl, by decide, by decide⟩

/-- Witness for C2 amended on `demoUsers`: the class of records with
city "a" keeps its input order through the ascending sort, and the
direction reversal is checked at a concrete pair. -/
theorem C2_sort_stability_witness :
    (v8sort (userCmp "city" SortDir.ascending) demoUsers).filter
      (fun u => decide (sortKey "city" u = vStr "a")) =
      demoUsers.filter (fun u => decide (sortKey "city" u = vStr "a")) ∧
    userCmp "city" SortDir.descending (vObj [("id", vNum 1), ("city", vStr "b")])
      (vObj [("id", vNum 2), ("city", vStr "a")]) =
      -(userCmp "city" SortDir.ascending
        (vObj [("id", vNum 1), ("city", vStr "b")])
        (vObj [("id", vNum 2), ("city", vStr "a")])) :=
  ⟨(C2_sort_stability "city" demoUsers (by decide)).1 SortDir.ascending
     (fun u => decide (sortKey "city" u = vStr "a"))
     (fun a b ha hb =>
       (of_decide_eq_true ha).trans (of_decide_eq_true hb).symm),
   (C2_sort_stability "city" demoUsers (by decide)).2.2.2
     (vObj [("id", vNum 1), ("city", vStr "b")])
     (vObj [("id", vNum 2), ("city", vStr "a")])⟩

/-- C8 counterexample: sorting `tripCex` ascending puts the missing-city
record (id 3) third; sorting that result descending and ascending again
puts it last — the round trip does not restore the first ascending
order. -/
theorem C8_counterexample :
    v8sort (userCmp "city" SortDir.ascending) tripCex =
      [vObj [("id", vNum 2), ("city", vStr "a")],
       vObj [("id", vNum 1), ("city", vStr "b")],
       vObj [("id", vNum 3)],
       vObj [("id", vNum 4), ("city", vStr "c")]] ∧
    v8sort (userCmp "city" SortDir.ascending)
      (v8sort (userCmp "city" SortDir.descending)
        (v8sort (userCmp "city" SortDir.ascending) tripCex)) =
      [vObj [("id", vNum 2), ("city", vStr "a")],
       vObj [("id", vNum 1), ("city", vStr "b")],
       vObj [("id", vNum 4), ("city", vStr "c")],
       vObj [("id", vNum 3)]] ∧
    ([vObj [("id", vNum 2), ("city", vStr "a")],
      vObj [("id", vNum 1), ("city", vStr "b")],
      vObj [("id", vNum 3)],
      vObj [("id", vNum 4), ("city", vStr "c")]] : List JVal) ≠
      [vObj [("id", vNum 2), ("city", vStr "a")],
       vObj [("id", vNum 1), ("city", vStr "b")],
       vObj [("id", vNum 4), ("city", vStr "c")],
       vObj [("id", vNum 3)]] :=
  ⟨by decide, by decide, by decide⟩

/-- C8 amended: provided every record resolves the sort column to a
string, sorting ascending, then descending, then ascending again
returns exactly the first ascending result. -/
theorem C8_roundtrip (col : String) (l : List JVal)
    (hs : ∀ u ∈ l, (sortKey col u).isStr = true) :
    v8sort (userCmp col SortDir.ascending)
      (v8sort (userCmp col SortDir.descending)
        (v8sort (userCmp col SortDir.ascending) l)) =
      v8sort (userCmp col SortDir.ascending) l := by
  have h1 := v8sort_asc_eq col l hs
  have hsA : ∀ u ∈ linSort (kcmp (skey col)) l,
      (sortKey col u).isStr = true :=
    fun u hu => hs u ((mem_linSort (kcmp (skey col)) l u).mp hu)
  have h2 := v8sort_desc_eq col (linSort (kcmp (skey col)) l) hsA
  have hsD : ∀ u ∈ linSort (kcmp (fun u => OrderDual.toDual (skey col u)))
      (linSort (kcmp (skey col)) l), (sortKey col u).isStr = true :=
    fun u hu => hsA u ((mem_linSort _ _ u).mp hu)
  have h3 := v8sort_asc_eq col
    (linSort (kcmp (fun u => OrderDual.toDual (skey col u)))
      (linSort (kcmp (skey col)) l)) hsD
  rw [h1, h2, h3]
  exact linSort_roundtrip (skey col) l

/-- Witness for C8 amended on the string-keyed `demoUsers`. -/
theorem C8_roundtrip_witness :
    v8sort (userCmp "city" SortDir.ascending)
      (v8sort (userCmp "city" SortDir.descending)
        (v8sort (userCmp "city" SortDir.ascending) demoUsers)) =
      v8sort (userCmp "city" SortDir.ascending) demoUsers :=
  C8_roundtrip "city" demoUsers (by decide)
